import Mathlib

/-!
Verification development for the pipelined delay-and-censor audio engine
(hardware/src/AudioProcessor.cpp and desktop/Source/LyricsAlignment.cpp).

The C++ is embedded shallowly: machine floats and doubles become `ℚ`
(the claims under study concern clamping, indexing and control flow,
none of which depend on rounding), C ints become `ℤ`/`ℕ` with explicit
truncation where a cast occurs, and the mutable buffers become functions
`ℕ → ℚ` mutated by `Function.update`.  The atomic cursors
`delayWritePos`/`delayReadPos` are stored modulo `L` in the source; here
they are kept as absolute monotone counters and every buffer access goes
through `% L`, which yields exactly the same ring indices and the same
`(writePos - readPos + L) % L` gap values.
-/

/-- Truncation toward zero, the semantics of a C `(int)` cast applied to a
nonnegative-or-negative real value. -/
def cTrunc (q : ℚ) : ℤ := if 0 ≤ q then ⌊q⌋ else ⌈q⌉

def emptyStr : String := ""

/-- `AudioProcessor::CensorMode`. -/
inductive CensorMode where
  | Reverse
  | Mute
deriving DecidableEq, Repr

/-- The fields of `AudioProcessor::Config` that the processing paths read.
`chunkSeconds` is fixed at 5 in every processing-path expression of the
source (`config.sampleRate * 5` and the float constant `5.0`), so it is
not carried as a field. -/
structure Config where
  sampleRate : ℕ
  channels : ℕ
  censorMode : CensorMode
  initialDelaySeconds : ℚ

/-- `audioBufferSize = (int)(config.sampleRate * config.chunkSeconds)`:
the analysis-chunk length in frames, `K = F · 5`. -/
def Config.K (cfg : Config) : ℕ := cfg.sampleRate * 5

/-- `delayBufferSize = (int)(config.sampleRate * (config.initialDelaySeconds + 10.0f))`. -/
def Config.L (cfg : Config) : ℕ :=
  (⌊(cfg.sampleRate : ℚ) * (cfg.initialDelaySeconds + 10)⌋).toNat

/-- Well-formedness of a configuration: a positive sample rate and channel
count, and a nonnegative initial delay. -/
def Config.Valid (cfg : Config) : Prop :=
  0 < cfg.sampleRate ∧ 0 < cfg.channels ∧ 0 ≤ cfg.initialDelaySeconds

/-- A stereo sample store: channel index → ring index → sample. -/
def DelayBuf : Type := ℕ → ℕ → ℚ

/-- Run a per-channel buffer transformation on every channel `ch < C`,
leaving other channel arrays alone (each `for (ch …)` loop of the source
touches only `delayBuffer[ch]`). -/
def channelMap (C : ℕ) (f : (ℕ → ℚ) → (ℕ → ℚ)) (d : DelayBuf) : DelayBuf :=
  fun ch => if ch < C then f (d ch) else d ch

/-- One channel of the `Mute` censor loop:
`for (i = startSample; i < endSample; ++i) delayBuffer[ch][(chunkStartPos + i) % delayBufferSize] = 0.0f`. -/
def muteRange (L start s e : ℕ) (b : ℕ → ℚ) : ℕ → ℚ :=
  (List.range (e - s)).foldl (fun acc i => Function.update acc ((start + (s + i)) % L) 0) b

/-- The sample written at span offset `i` by the `Reverse` write-back
loop: `tempBuffer` holds the span copied out of the buffer before any
write, `std::reverse` makes entry `i` the original sample at offset
`n - 1 - i`, and the write multiplies by `volumeReduction = 0.5` and the
linear fade ramps. -/
def reverseValue (L start s e fade : ℕ) (b : ℕ → ℚ) (i : ℕ) : ℚ :=
  if i < fade then
    b ((start + (s + (e - s - 1 - i))) % L) * (((i : ℚ) / (fade : ℚ)) * (1/2))
  else if e - s - fade ≤ i then
    b ((start + (s + (e - s - 1 - i))) % L) * ((((e - s : ℕ) : ℚ) - (i : ℚ)) / (fade : ℚ) * (1/2))
  else
    b ((start + (s + (e - s - 1 - i))) % L) * (1/2)

/-- One channel of the `Reverse` censor loop: the span is copied out to
`tempBuffer` (so every read sees the pre-patch samples), reversed,
attenuated by 0.5, faded linearly over `fade` frames at each end, and
written back in place. -/
def reverseRange (L start s e fade : ℕ) (b : ℕ → ℚ) : ℕ → ℚ :=
  (List.range (e - s)).foldl (fun acc i =>
    Function.update acc ((start + (s + i)) % L) (reverseValue L start s e fade b i)) b

/-- All channels of a `Mute` patch. -/
def muteCensor (cfg : Config) (chunkStart s e : ℕ) (d : DelayBuf) : DelayBuf :=
  channelMap cfg.channels (muteRange cfg.L chunkStart s e) d

/-- All channels of a `Reverse` patch; `fadeSamples = min(480, numSamplesToCensor / 4)`. -/
def reverseCensor (cfg : Config) (chunkStart s e : ℕ) (d : DelayBuf) : DelayBuf :=
  channelMap cfg.channels (reverseRange cfg.L chunkStart s e (min 480 ((e - s) / 4))) d

/-- `startSample` after padding and clamping:
`startSample = (int)((start - 0.4) * sampleRate); startSample = max(0, min(startSample, sampleRate*5))`. -/
def censorStartSample (F : ℕ) (a : ℚ) : ℤ :=
  max 0 (min (cTrunc ((a - 2/5) * (F : ℚ))) ((5 : ℤ) * F))

/-- `endSample` after padding and clamping:
`endSample = (int)((end + 0.1) * sampleRate); endSample = max(startSample, min(endSample, sampleRate*5))`. -/
def censorEndSample (F : ℕ) (a b : ℚ) : ℤ :=
  max (censorStartSample F a) (min (cTrunc ((b + 1/10) * (F : ℚ))) ((5 : ℤ) * F))

/-- Apply one censor patch for a hit spanning `[a, b]` seconds within the
chunk, as `AudioProcessor::processTranscription` does. -/
def applyCensorSpan (cfg : Config) (chunkStart : ℕ) (a b : ℚ) (d : DelayBuf) : DelayBuf :=
  match cfg.censorMode with
  | CensorMode.Mute =>
    muteCensor cfg chunkStart (censorStartSample cfg.sampleRate a).toNat
      (censorEndSample cfg.sampleRate a b).toNat d
  | CensorMode.Reverse =>
    reverseCensor cfg chunkStart (censorStartSample cfg.sampleRate a).toNat
      (censorEndSample cfg.sampleRate a b).toNat d

/-- `WordSegment {word, start, end, confidence}`; `end` is spelled
`endSec` because it is a reserved word in Lean. -/
structure WordSegment where
  word : String
  startSec : ℚ
  endSec : ℚ
  confidence : ℚ
deriving DecidableEq, Repr

instance : Inhabited WordSegment := ⟨⟨emptyStr, 0, 0, 0⟩⟩

/-- ASCII `::tolower` in the C locale. -/
def asciiLower (c : Char) : Char :=
  if 'A' ≤ c ∧ c ≤ 'Z' then Char.ofNat (c.toNat + 32) else c

/-- C `isalnum` on the ASCII range (the C locale used by the source). -/
def isAlnumAscii (c : Char) : Bool :=
  ('0' ≤ c ∧ c ≤ '9') ∨ ('a' ≤ c ∧ c ≤ 'z') ∨ ('A' ≤ c ∧ c ≤ 'Z')

/-- C `isspace` in the C locale. -/
def isSpaceC (c : Char) : Bool :=
  c = ' ' ∨ c = '\t' ∨ c = '\n' ∨ c = '\r' ∨ c = '\x0b' ∨ c = '\x0c'

/-- Split a character list at whitespace, dropping empty runs, as the
`istringstream >> word` loop of `LyricsAlignment::normalizeText` does. -/
def splitWordsAux : List Char → List Char → List String
  | [], acc => if acc = [] then [] else [String.mk acc.reverse]
  | c :: cs, acc =>
    if isSpaceC c then
      if acc = [] then splitWordsAux cs []
      else String.mk acc.reverse :: splitWordsAux cs []
    else splitWordsAux cs (c :: acc)

/-- `LyricsAlignment::normalizeText`: lowercase, keep only alphanumerics
and whitespace, collapse whitespace runs to single spaces, trim. -/
def normalizeText (s : String) : String :=
  let lowered := s.data.map asciiLower
  let kept := lowered.filter (fun c => isAlnumAscii c || isSpaceC c)
  String.intercalate (String.mk [' ']) (splitWordsAux kept [])

/-- Ghost trace of the profanity scan in
`AudioProcessor::processTranscription`: the lookups performed and the
censor patches applied, each tagged with the loop index `idx`. -/
inductive ScanEvent where
  | look1 (idx : ℕ) (matched : Bool)
  | look2 (idx : ℕ) (matched : Bool)
  | hit1 (idx : ℕ)
  | hit2 (idx : ℕ)
deriving DecidableEq, Repr

def ScanEvent.index : ScanEvent → ℕ
  | .look1 i _ => i
  | .look2 i _ => i
  | .hit1 i => i
  | .hit2 i => i

/-- The profanity scan loop of `AudioProcessor::processTranscription`
(lines 493–646), with the word list as the suffix still to be scanned and
`lex` the `ProfanityFilter::containsProfanity` set-membership oracle
(§4.7 of the spec; its own source is outside the embedded core).
Returns the delay buffer and the `profanityCount` accumulator.

Faithful control-flow notes: a single-word match under `bufferUnderrun`
executes `continue`, skipping the bigram check of the same index; the
bigram check itself is a second independent `if`, executed even when the
single-word lookup matched; a bigram match under `bufferUnderrun`
executes `continue` before the extra `idx++`, so it advances by one.
The multi-word Reverse branch computes `tempBuffer[i] * 0.5` before the
fade factor where the single-word branch multiplies the fade factor by
0.5 first; the products are identical, so both use `applyCensorSpan`. -/
def scanGo (cfg : Config) (lex : String → Bool) (underrun : Bool) (chunkStart : ℕ) :
    List WordSegment → DelayBuf → ℕ → DelayBuf × ℕ
  | [], d, cnt => (d, cnt)
  | w :: rest, d, cnt =>
    if lex (normalizeText w.word) ∧ underrun then
      scanGo cfg lex underrun chunkStart rest d cnt
    else
      let d1 := if lex (normalizeText w.word) then
        applyCensorSpan cfg chunkStart w.startSec w.endSec d else d
      let c1 := if lex (normalizeText w.word) then cnt + 1 else cnt
      match rest with
      | [] => (d1, c1)
      | w2 :: rest2 =>
        if lex (normalizeText (w.word ++ w2.word)) then
          if underrun then scanGo cfg lex underrun chunkStart (w2 :: rest2) d1 c1
          else scanGo cfg lex underrun chunkStart rest2
            (applyCensorSpan cfg chunkStart w.startSec w2.endSec d1) (c1 + 1)
        else scanGo cfg lex underrun chunkStart (w2 :: rest2) d1 c1

/-- The ghost lookup/patch trace of the same loop, with `idx` the index
of the suffix's head word within the full list: `look1` is the
single-word `containsProfanity` lookup, `look2` the concatenated bigram
lookup, and `hit1`/`hit2` mark a censor patch actually applied (both are
absent under `bufferUnderrun`, whose `continue` also skips the bigram
lookup of an index whose single lookup matched, and drops the extra
`idx++` of a bigram hit). -/
def scanEvents (lex : String → Bool) (underrun : Bool) :
    List WordSegment → ℕ → List ScanEvent
  | [], _ => []
  | w :: rest, idx =>
    let m1 := lex (normalizeText w.word)
    if m1 ∧ underrun then ScanEvent.look1 idx m1 :: scanEvents lex underrun rest (idx + 1)
    else
      let ev1 : List ScanEvent :=
        if m1 then [ScanEvent.look1 idx true, ScanEvent.hit1 idx]
        else [ScanEvent.look1 idx false]
      match rest with
      | [] => ev1
      | w2 :: rest2 =>
        if lex (normalizeText (w.word ++ w2.word)) then
          if underrun then
            ev1 ++ ScanEvent.look2 idx true :: scanEvents lex underrun (w2 :: rest2) (idx + 1)
          else
            ev1 ++ ScanEvent.look2 idx true :: ScanEvent.hit2 idx ::
              scanEvents lex underrun rest2 (idx + 2)
        else ev1 ++ ScanEvent.look2 idx false :: scanEvents lex underrun (w2 :: rest2) (idx + 1)

/-- The whole censorship pass over one chunk's transcribed words. -/
def censorScan (cfg : Config) (lex : String → Bool) (underrun : Bool) (chunkStart : ℕ)
    (words : List WordSegment) (d : DelayBuf) : DelayBuf × ℕ :=
  scanGo cfg lex underrun chunkStart words d 0

/-- Per-word timing synthesis from a segment interval
(`AudioProcessor::processTranscription`, lines 456–472): distribute the
segment's words uniformly over `[segStart, segEnd]`, clamp the start to
`[0, 5]`, clamp the end to at most 5 but at least `start + 0.05`. -/
def synthesizeTimings (segStart segEnd : ℚ) (wordCount : ℕ) : List (ℚ × ℚ) :=
  if wordCount = 0 then [] else
    let wordDuration := (segEnd - segStart) / (wordCount : ℚ)
    (List.range wordCount).map (fun (k : ℕ) =>
      let wordStart := segStart + (k : ℚ) * wordDuration
      let wordEnd := wordStart + wordDuration
      let ws := max 0 (min 5 wordStart)
      let we := max (ws + 1/20) (min 5 wordEnd)
      (ws, we))

/-- The mono downmix of one input frame:
`monoSample = (Σ_ch inputBuffer[i*channels+ch]) / channels`. -/
def monoMix (cfg : Config) (frame : ℕ → ℚ) : ℚ :=
  (((List.range cfg.channels).map frame).sum) / (cfg.channels : ℚ)

/-- The engine state mutated by `AudioProcessor::process` and shared with
the ASR worker.  Cursors `W`/`R` are absolute; ring indices are `· % L`.
Write-only statistics of the source (the RMS input-level meter, the
logging counters `debugCounter`/`wasWaiting` and `lastUnderrunWarningTime`)
have no behavioral effect and are not carried.  `wasPaused` is the
function-local `static bool` of the dynamic-buffering branch. -/
structure ProcState where
  W : ℕ
  R : ℕ
  playbackStarted : Bool
  wasPaused : Bool
  bufferUnderrun : Bool
  hasNewBuffer : Bool
  delay : DelayBuf
  audioBuf : ℕ → ℚ
  processingBuf : ℕ → ℚ
  bufferWritePos : ℕ
  transcriptionInterval : ℕ
  bufferCaptureTime : ℕ
  profanityCount : ℕ
  streamTime : ℚ

/-- The playback-gate state named by the spec: `Warming` before
`playbackStarted`, then `Paused`/`Playing` after `wasPaused`. -/
inductive GateState where
  | Warming
  | Paused
  | Playing
deriving DecidableEq, Repr

def gateOf (s : ProcState) : GateState :=
  if s.playbackStarted = false then GateState.Warming
  else if s.wasPaused then GateState.Paused
  else GateState.Playing

/-- One iteration of the per-frame loop of `AudioProcessor::process`
(lines 253–314): write the input frame into the delay line at `W % L`,
compute the fill `(writePos - readPos + L) % L`, run the gate, emit the
output frame (delay-line sample at `R % L` when playing, zero otherwise),
then advance `W` and, when playing, `R`.  Returns the new state and the
emitted output frame (channel → sample). -/
def frameStep (cfg : Config) (inp : ℕ → ℚ) (s : ProcState) : ProcState × (ℕ → ℚ) :=
  let d1 : DelayBuf := fun ch =>
    if ch < cfg.channels then Function.update (s.delay ch) (s.W % cfg.L) (inp ch) else s.delay ch
  let gap := (s.W - s.R) % cfg.L
  let bufferSeconds : ℚ := (gap : ℚ) / (cfg.sampleRate : ℚ)
  let next :=
    if s.playbackStarted = false then
      let canPlay : Bool := decide (cfg.initialDelaySeconds ≤ bufferSeconds)
      (canPlay, canPlay, s.wasPaused)
    else
      let wasPaused' : Bool :=
        if bufferSeconds < cfg.initialDelaySeconds - 2 ∧ s.wasPaused = false then true
        else if cfg.initialDelaySeconds ≤ bufferSeconds ∧ s.wasPaused then false
        else s.wasPaused
      (!wasPaused', true, wasPaused')
  let canPlay := next.1
  let out : ℕ → ℚ := fun ch =>
    if ch < cfg.channels then (if canPlay then d1 ch (s.R % cfg.L) else 0) else 0
  ({ s with
      delay := d1
      W := s.W + 1
      R := if canPlay then s.R + 1 else s.R
      playbackStarted := next.2.1
      wasPaused := next.2.2 }, out)

/-- The mono-accumulation loop of `AudioProcessor::process` (lines
187–200): append the downmix of each of the block's `f` frames while
`bufferWritePos < audioBuffer.size()`, dropping the rest.  `history t`
is the input frame captured at absolute position `t`; the block's frames
sit at `s.W + i` for `i < f`. -/
def accumStep (cfg : Config) (m : ℚ) (st : ProcState) : ProcState :=
  if st.bufferWritePos < cfg.K then
    { st with
        audioBuf := Function.update st.audioBuf st.bufferWritePos m
        bufferWritePos := st.bufferWritePos + 1 }
  else st

def accumulateBlock (cfg : Config) (history : ℕ → ℕ → ℚ) (f : ℕ) (s : ProcState) : ProcState :=
  (List.range f).foldl (fun st i => accumStep cfg (monoMix cfg (history (s.W + i))) st) s

/-- The chunk-handoff branch of `AudioProcessor::process` (lines
205–236): when a chunk's worth of frames has accumulated and the worker
is idle, snapshot the capture buffer into `processingBuffer`, record
`bufferCaptureTime = delayWritePos` (still the pre-block value, as the
delay-line write loop runs after this branch), raise `hasNewBuffer`,
and reset the capture counters.  Otherwise (worker busy) only logging
happens. -/
def handoffCheck (cfg : Config) (s : ProcState) : ProcState :=
  if cfg.K ≤ s.transcriptionInterval ∧ s.hasNewBuffer = false then
    let samplesToProcess := min s.bufferWritePos cfg.K
    { s with
        processingBuf := fun i => if i < samplesToProcess then s.audioBuf i else s.processingBuf i
        bufferCaptureTime := s.W % cfg.L
        hasNewBuffer := true
        bufferWritePos := 0
        transcriptionInterval := 0 }
  else s

/-- One whole call to `AudioProcessor::process` with a block of `f`
frames drawn from `history` at absolute positions `[s.W, s.W + f)`:
mono accumulation, `transcriptionInterval += frames`, the handoff check,
then the per-frame delay/gate loop, then `streamTime` bookkeeping. -/
def frameFold (cfg : Config) (history : ℕ → ℕ → ℚ) (l : List ℕ) (s : ProcState) : ProcState :=
  l.foldl (fun st _ => (frameStep cfg (history st.W) st).1) s

def processCall (cfg : Config) (history : ℕ → ℕ → ℚ) (f : ℕ) (s : ProcState) : ProcState :=
  let s1 := accumulateBlock cfg history f s
  let s2 := handoffCheck cfg { s1 with transcriptionInterval := s1.transcriptionInterval + f }
  let s3 := frameFold cfg history (List.range f) s2
  { s3 with streamTime := s3.streamTime + (f : ℚ) / (cfg.sampleRate : ℚ) }

/-- The state produced by `AudioProcessor::start` (lines 126–146) on a
freshly initialized processor: cursors and counters zeroed, flags
cleared, delay buffer zero-filled.  (`wasPaused` is `static` and is not
re-cleared by `start`, but its one-time initializer makes it false on
the first run, which is the state modeled here.) -/
def startState : ProcState where
  W := 0
  R := 0
  playbackStarted := false
  wasPaused := false
  bufferUnderrun := false
  hasNewBuffer := false
  delay := fun _ _ => 0
  audioBuf := fun _ => 0
  processingBuf := fun _ => 0
  bufferWritePos := 0
  transcriptionInterval := 0
  bufferCaptureTime := 0
  profanityCount := 0
  streamTime := 0

/-- States reachable from `start` through calls of the audio callback. -/
inductive Reachable (cfg : Config) (history : ℕ → ℕ → ℚ) : ProcState → Prop where
  | start : Reachable cfg history startState
  | step (f : ℕ) (s : ProcState) :
      Reachable cfg history s → Reachable cfg history (processCall cfg history f s)

/-- The edit-distance matrix built by
`LyricsAlignment::calculateEditDistance`: first row `j`, first column
`i`, and for `i,j ≥ 1` the cell is `matrix[i-1][j-1]` on a word match
and `1 + min(delete, insert, replace)` otherwise.  The double loop of
the source fills exactly this recurrence bottom-up. -/
def editMatrix (seq1 seq2 : List String) : ℕ → ℕ → ℕ
  | 0, j => j
  | i + 1, 0 => i + 1
  | i + 1, j + 1 =>
    if seq1.getD i emptyStr = seq2.getD j emptyStr then editMatrix seq1 seq2 i j
    else 1 + min (editMatrix seq1 seq2 i (j + 1))
      (min (editMatrix seq1 seq2 (i + 1) j) (editMatrix seq1 seq2 i j))
  termination_by i j => (i, j)

/-- The backtracking loop of `LyricsAlignment::backtrackAlignment`
(lines 188–213), producing `(trans_idx, lyrics_idx)` pairs in
backtrack order (bottom-right to top-left); `-1` marks an insertion.
The loop strictly decreases `i + j` whenever it moves, so a fuel of the
initial `i + j` reproduces it exactly; the fuel-exhausted and
no-branch cases return the pairs collected so far (the C++ would spin
forever there, but neither is reachable from a `calculateEditDistance`
matrix). -/
def backtrackFuel (M : ℕ → ℕ → ℕ) (tw lw : List String) :
    ℕ → ℕ → ℕ → List (ℤ × ℤ)
  | 0, _, _ => []
  | _ + 1, 0, 0 => []
  | fuel + 1, i, j =>
    if 0 < i ∧ 0 < j ∧ tw.getD (i - 1) emptyStr = lw.getD (j - 1) emptyStr then
      ((i : ℤ) - 1, (j : ℤ) - 1) :: backtrackFuel M tw lw fuel (i - 1) (j - 1)
    else if 0 < i ∧ 0 < j ∧ M i j = M (i - 1) (j - 1) + 1 then
      ((i : ℤ) - 1, (j : ℤ) - 1) :: backtrackFuel M tw lw fuel (i - 1) (j - 1)
    else if 0 < j ∧ M i j = M i (j - 1) + 1 then
      ((-1 : ℤ), (j : ℤ) - 1) :: backtrackFuel M tw lw fuel i (j - 1)
    else if 0 < i then backtrackFuel M tw lw fuel (i - 1) j
    else []

/-- The alignment pair list in start-to-end order: the C++ pushes pairs
while backtracking and then reverses the vector. -/
def alignPairs (M : ℕ → ℕ → ℕ) (tw lw : List String) : List (ℤ × ℤ) :=
  (backtrackFuel M tw lw (tw.length + lw.length) tw.length lw.length).reverse

/-- `estimatedStart = 0.0`, overridden with `correctedSegments.back().end`
when the list is nonempty, in the emission loop of
`LyricsAlignment::backtrackAlignment`. -/
def lastEndOf (acc : List WordSegment) : ℚ :=
  match acc.getLast? with
  | none => 0
  | some sg => sg.endSec

/-- One iteration of the segment-emission loop of
`LyricsAlignment::backtrackAlignment` (lines 219–251): a
match/substitution pair takes the lyric word's text with the transcribed
word's timing and 0.95 × its confidence; an insertion synthesizes
`start = last emitted end (0 if none)`, `end = start + 0.3`,
confidence 0.5; anything else (never produced by the backtrack) appends
nothing. -/
def buildStep (lw : List String) (orig : List WordSegment)
    (acc : List WordSegment) (p : ℤ × ℤ) : List WordSegment :=
  if (0 : ℤ) ≤ p.1 ∧ (0 : ℤ) ≤ p.2 then
    acc ++ [⟨lw.getD p.2.toNat emptyStr, (orig.getD p.1.toNat default).startSec,
      (orig.getD p.1.toNat default).endSec, (orig.getD p.1.toNat default).confidence * (19/20)⟩]
  else if (0 : ℤ) ≤ p.2 then
    acc ++ [⟨lw.getD p.2.toNat emptyStr, lastEndOf acc, lastEndOf acc + 3/10, 1/2⟩]
  else acc

def buildSegments (lw : List String) (orig : List WordSegment)
    (pairs : List (ℤ × ℤ)) : List WordSegment :=
  pairs.foldl (buildStep lw orig) []

/-- `LyricsAlignment::backtrackAlignment` in full. -/
def backtrackAlignment (M : ℕ → ℕ → ℕ) (tw lw : List String)
    (orig : List WordSegment) : List WordSegment :=
  buildSegments lw orig (alignPairs M tw lw)

/-- The emission rule exactly as §4.6 of the spec words it, one output
segment per aligned pair, threading the previous emitted end time. -/
def emitAligned (lw : List String) (orig : List WordSegment) :
    List (ℤ × ℤ) → ℚ → List WordSegment
  | [], _ => []
  | p :: rest, prevEnd =>
    if (0 : ℤ) ≤ p.1 ∧ (0 : ℤ) ≤ p.2 then
      let original := orig.getD p.1.toNat default
      ⟨lw.getD p.2.toNat emptyStr, original.startSec, original.endSec,
        original.confidence * (19/20)⟩ :: emitAligned lw orig rest original.endSec
    else if (0 : ℤ) ≤ p.2 then
      ⟨lw.getD p.2.toNat emptyStr, prevEnd, prevEnd + 3/10, 1/2⟩ ::
        emitAligned lw orig rest (prevEnd + 3/10)
    else emitAligned lw orig rest prevEnd

/-- The fill `W - R` (absolute cursors, so plain subtraction). -/
def fillOf (s : ProcState) : ℕ := s.W - s.R

/-- The state invariant maintained by the per-frame loop from `start`:
cursors ordered, never paused, fill below `initialDelay · F + 1`, and at
least `initialDelay · F` once playback has started. -/
def GateInv (cfg : Config) (s : ProcState) : Prop :=
  s.R ≤ s.W ∧ s.wasPaused = false ∧
  ((fillOf s : ℚ) < cfg.initialDelaySeconds * (cfg.sampleRate : ℚ) + 1) ∧
  (s.playbackStarted = true →
    cfg.initialDelaySeconds * (cfg.sampleRate : ℚ) ≤ (fillOf s : ℚ))

/-- The structural invariant of the capture buffer, maintained by every
`process` call from `start` (proved below): `audioBufferWritePos`
saturates at `K` while `transcriptionSampleCount` keeps counting every
offered frame, the write cursor has advanced by exactly the offered
frames, and the buffer's first `bufferWritePos` slots hold the downmixes
of the oldest frames offered since the last reset, whose first frame sat
at absolute position `W - transcriptionInterval`. -/
def CaptureInv (cfg : Config) (history : ℕ → ℕ → ℚ) (s : ProcState) : Prop :=
  s.bufferWritePos = min s.transcriptionInterval cfg.K ∧
  s.transcriptionInterval ≤ s.W ∧
  ∀ j, j < s.bufferWritePos →
    s.audioBuf j = monoMix cfg (history (s.W - s.transcriptionInterval + j))

def cfgMute1 : Config := ⟨1, 1, CensorMode.Mute, 10⟩

def dOne : DelayBuf := fun _ _ => 1

def strFoo : String := "foo"

def strBar : String := "bar"

def strFooBar : String := "foobar"

/-- A lexicon oracle containing the single word and the concatenated
bigram built from the two test words. -/
def lexFB : String → Bool := fun t => (t == strFoo) || (t == strFooBar)

def wordsFB : List WordSegment := [⟨strFoo, 1, 2, 9/10⟩, ⟨strBar, 2, 3, 9/10⟩]

def matrixW : ℕ → ℕ → ℕ := fun i j => i + j

def origW : List WordSegment := [⟨strFoo, 1, 2, 4/5⟩]

def sWarm10 : ProcState := { startState with W := 10 }

def histZ : ℕ → ℕ → ℚ := fun _ _ => 0

/-- A nonzero input history for concrete chunk evaluations: the frame at
absolute position `t` holds `t + 1` in every channel. -/
def hist2 : ℕ → ℕ → ℚ := fun t _ => (t : ℚ) + 1

/-- A processor mid-stream with a DEFERRED handoff pending: the worker
stayed busy past one chunk boundary, so `transcriptionInterval` (7) has
outrun `K` (5) while the capture buffer saturated at `K` samples; the
worker has since taken the previous chunk (`hasNewBuffer` false), so the
next `process` call hands off the oldest `K` frames since the reset. -/
def sDefer : ProcState :=
  { startState with W := 7, transcriptionInterval := 7, bufferWritePos := 5 }

/-- A processor deep in normal playback: Playing (started, not paused),
write cursor at 9 frames, read cursor at 0, so the fill is 9 frames. -/
def sPlay9 : ProcState := { startState with W := 9, playbackStarted := true }

/-- The state of `sPlay9` after mono accumulation, the interval update
and the (non-firing) handoff check of a 1-frame `process` call, i.e. the
state entering the per-frame delay/gate loop. -/
def sMid9 : ProcState :=
  handoffCheck cfgMute1
    { accumulateBlock cfgMute1 histZ 1 sPlay9 with
        transcriptionInterval := (accumulateBlock cfgMute1 histZ 1 sPlay9).transcriptionInterval + 1 }

-- Generic facts about a left fold of point updates over `List.range n`.

theorem foldl_update_of_forall_ne (pos : ℕ → ℕ) (v : ℕ → (ℕ → ℚ) → ℚ) (b : ℕ → ℚ) (n p : ℕ)
    (h : ∀ i, i < n → pos i ≠ p) :
    ((List.range n).foldl (fun acc i => Function.update acc (pos i) (v i acc)) b) p = b p := by
  induction n generalizing b with
  | zero => simp
  | succ m ih =>
    rw [List.range_succ, List.foldl_append]
    simp only [List.foldl_cons, List.foldl_nil]
    rw [Function.update_noteq (fun hp => h m (Nat.lt_succ_self m) hp.symm)]
    exact ih b (fun i hi => h i (Nat.lt_succ_of_lt hi))

theorem foldl_update_const_of_mem (pos : ℕ → ℕ) (b : ℕ → ℚ) (n p : ℕ) (c : ℚ)
    (h : ∃ i, i < n ∧ pos i = p) :
    ((List.range n).foldl (fun acc i => Function.update acc (pos i) c) b) p = c := by
  induction n generalizing b with
  | zero => obtain ⟨i, hi, _⟩ := h; omega
  | succ m ih =>
    rw [List.range_succ, List.foldl_append]
    simp only [List.foldl_cons, List.foldl_nil]
    by_cases hp : pos m = p
    · rw [hp, Function.update_same]
    · rw [Function.update_noteq (Ne.symm hp)]
      obtain ⟨i, hi, hpi⟩ := h
      have him : i < m := by
        rcases Nat.lt_succ_iff_lt_or_eq.mp hi with h1 | h1
        · exact h1
        · exact absurd (h1 ▸ hpi) hp
      exact ih b ⟨i, him, hpi⟩

theorem foldl_update_last_write (pos : ℕ → ℕ) (v : ℕ → ℚ) (b : ℕ → ℚ) (n j : ℕ)
    (hinj : ∀ i1 i2, i1 < n → i2 < n → pos i1 = pos i2 → i1 = i2) (hj : j < n) :
    ((List.range n).foldl (fun acc i => Function.update acc (pos i) (v i)) b) (pos j) = v j := by
  induction n generalizing b with
  | zero => omega
  | succ m ih =>
    rw [List.range_succ, List.foldl_append]
    simp only [List.foldl_cons, List.foldl_nil]
    rcases Nat.lt_succ_iff_lt_or_eq.mp hj with hjm | hjm
    · have hne : pos j ≠ pos m := fun hq =>
        absurd (hinj j m (Nat.lt_succ_of_lt hjm) (Nat.lt_succ_self m) hq) (by omega)
      rw [Function.update_noteq hne]
      exact ih b (fun i1 i2 h1 h2 => hinj i1 i2 (Nat.lt_succ_of_lt h1) (Nat.lt_succ_of_lt h2)) hjm
    · subst hjm; rw [Function.update_same]

-- Characterizations of the patch loops.

theorem muteRange_apply (L start s e : ℕ) (b : ℕ → ℚ) (p : ℕ) :
    muteRange L start s e b p =
      if ∃ j, j < e - s ∧ (start + (s + j)) % L = p then 0 else b p := by
  unfold muteRange
  by_cases h : ∃ j, j < e - s ∧ (start + (s + j)) % L = p
  · rw [if_pos h]
    exact foldl_update_const_of_mem (fun i => (start + (s + i)) % L) b (e - s) p 0 h
  · rw [if_neg h]
    push_neg at h
    exact foldl_update_of_forall_ne (fun i => (start + (s + i)) % L) (fun _ _ => 0) b (e - s) p h

/-- Claim C10: applying a `Mute` patch twice to the same span of the
delay line yields the same contents as applying it once, and the patch
leaves every ring position outside `{(chunkStart + i) % L | s ≤ i < e}`
(in every channel) unchanged. -/
theorem mute_idempotent_untouched (cfg : Config) (chunkStart s e : ℕ) (d : DelayBuf) :
    muteCensor cfg chunkStart s e (muteCensor cfg chunkStart s e d) =
      muteCensor cfg chunkStart s e d ∧
    ∀ ch p, (∀ i, s ≤ i → i < e → (chunkStart + i) % cfg.L ≠ p) →
      muteCensor cfg chunkStart s e d ch p = d ch p := by
  constructor
  · funext ch p
    unfold muteCensor channelMap
    by_cases hch : ch < cfg.channels
    · rw [if_pos hch, if_pos hch, muteRange_apply, muteRange_apply]
      by_cases h : ∃ j, j < e - s ∧ (chunkStart + (s + j)) % cfg.L = p
      · rw [if_pos h, if_pos h]
      · rw [if_neg h, if_neg h]
    · rw [if_neg hch, if_neg hch]
  · intro ch p hout
    unfold muteCensor channelMap
    by_cases hch : ch < cfg.channels
    · rw [if_pos hch, muteRange_apply, if_neg]
      rintro ⟨j, hj, hpj⟩
      exact hout (s + j) (Nat.le_add_right s j) (by omega) hpj
    · rw [if_neg hch]

theorem cfgMute1_L : cfgMute1.L = 20 := by
  norm_num [Config.L, cfgMute1]
  rfl

theorem mute_idempotent_untouched_witness :
    muteCensor cfgMute1 3 1 3 dOne 0 0 = dOne 0 0 :=
  (mute_idempotent_untouched cfgMute1 3 1 3 dOne).2 0 0
    (by simp only [cfgMute1_L]; decide)

theorem ringPos_inj (L base n : ℕ) (hn : n ≤ L) (i1 i2 : ℕ) (h1 : i1 < n) (h2 : i2 < n)
    (hq : (base + i1) % L = (base + i2) % L) : i1 = i2 := by
  have h3 : i1 % L = i2 % L := Nat.ModEq.add_left_cancel' base hq
  rwa [Nat.mod_eq_of_lt (lt_of_lt_of_le h1 hn), Nat.mod_eq_of_lt (lt_of_lt_of_le h2 hn)] at h3

/-- Claim C8: a `Reverse` patch over a span of `n = e - s` frames
replaces, in each channel, sample `i` of the span with the original
sample at offset `n - 1 - i`, multiplied by 0.5 and by the linear fade
ramp `i / fadeSamples` over the first `fadeSamples` frames and
`(n - i) / fadeSamples` over the last `fadeSamples` frames, with
`fadeSamples = min(480, n / 4)`; a `Mute` patch replaces every sample of
the span in every channel with exactly zero. -/
theorem reverse_mute_patch_semantics (cfg : Config) (chunkStart s e : ℕ) (d : DelayBuf)
    (ch i : ℕ) (hch : ch < cfg.channels) (hn : e - s ≤ cfg.L) (hi : i < e - s) :
    (reverseCensor cfg chunkStart s e d) ch ((chunkStart + (s + i)) % cfg.L) =
      d ch ((chunkStart + (s + (e - s - 1 - i))) % cfg.L) * (1/2) *
        (if i < min 480 ((e - s) / 4) then (i : ℚ) / ((min 480 ((e - s) / 4) : ℕ) : ℚ)
         else if e - s - min 480 ((e - s) / 4) ≤ i then
           (((e - s : ℕ) : ℚ) - (i : ℚ)) / ((min 480 ((e - s) / 4) : ℕ) : ℚ)
         else 1) ∧
    (muteCensor cfg chunkStart s e d) ch ((chunkStart + (s + i)) % cfg.L) = 0 := by
  have hinj : ∀ i1 i2, i1 < e - s → i2 < e - s →
      (chunkStart + (s + i1)) % cfg.L = (chunkStart + (s + i2)) % cfg.L → i1 = i2 := by
    intro i1 i2 h1 h2 hq
    exact ringPos_inj cfg.L (chunkStart + s) (e - s) hn i1 i2 h1 h2
      (by simpa [Nat.add_assoc] using hq)
  constructor
  · unfold reverseCensor channelMap
    rw [if_pos hch]
    have hmain :
        reverseRange cfg.L chunkStart s e (min 480 ((e - s) / 4)) (d ch)
            ((chunkStart + (s + i)) % cfg.L) =
          reverseValue cfg.L chunkStart s e (min 480 ((e - s) / 4)) (d ch) i := by
      unfold reverseRange
      exact foldl_update_last_write (fun j => (chunkStart + (s + j)) % cfg.L)
        (fun j => reverseValue cfg.L chunkStart s e (min 480 ((e - s) / 4)) (d ch) j)
        (d ch) (e - s) i hinj hi
    rw [hmain]
    unfold reverseValue
    by_cases h1 : i < min 480 ((e - s) / 4)
    · rw [if_pos h1, if_pos h1]; ring
    · rw [if_neg h1, if_neg h1]
      by_cases h2 : e - s - min 480 ((e - s) / 4) ≤ i
      · rw [if_pos h2, if_pos h2]; ring
      · rw [if_neg h2, if_neg h2]; ring
  · unfold muteCensor channelMap
    rw [if_pos hch, muteRange_apply, if_pos ⟨i, hi, rfl⟩]

theorem reverse_mute_patch_semantics_witness :
    reverseCensor cfgMute1 0 0 2 dOne 0 0 = 1/2 ∧
    muteCensor cfgMute1 0 0 2 dOne 0 0 = 0 := by
  have h := reverse_mute_patch_semantics cfgMute1 0 0 2 dOne 0 0 (by decide)
    (by simp only [cfgMute1_L]; decide) (by decide)
  norm_num [cfgMute1_L, dOne] at h
  exact h

/-- Claim C7: for every hit, after the 0.4 s pre-roll and 0.1 s
post-roll the frame offsets are clamped so that
`0 ≤ startSample ≤ endSample ≤ 5·F = K`, and consequently every delay
line position a censor patch writes is `(chunkStartPos + i) % L` for
some offset `i` inside `[startSample, endSample) ⊆ [0, K)` — never
before `chunkStartAbs`, never at or past `captureEndPos`. -/
theorem censor_span_clamp_containment (cfg : Config) (chunkStart : ℕ) (a b : ℚ) :
    0 ≤ censorStartSample cfg.sampleRate a ∧
    censorStartSample cfg.sampleRate a ≤ censorEndSample cfg.sampleRate a b ∧
    censorEndSample cfg.sampleRate a b ≤ (5 : ℤ) * cfg.sampleRate ∧
    ∀ d ch p, applyCensorSpan cfg chunkStart a b d ch p ≠ d ch p →
      ∃ i, (censorStartSample cfg.sampleRate a).toNat ≤ i ∧
        i < (censorEndSample cfg.sampleRate a b).toNat ∧ i < cfg.K ∧
        p = (chunkStart + i) % cfg.L := by
  have h0 : 0 ≤ censorStartSample cfg.sampleRate a := by
    unfold censorStartSample; exact le_max_left 0 _
  have hse : censorStartSample cfg.sampleRate a ≤ censorEndSample cfg.sampleRate a b := by
    unfold censorEndSample; exact le_max_left _ _
  have h5 : censorEndSample cfg.sampleRate a b ≤ (5 : ℤ) * cfg.sampleRate := by
    have hnn : (0 : ℤ) ≤ 5 * cfg.sampleRate := by positivity
    unfold censorEndSample censorStartSample
    exact max_le (max_le hnn (min_le_right _ _)) (min_le_right _ _)
  refine ⟨h0, hse, h5, ?_⟩
  intro d ch p hne
  by_contra hno
  push_neg at hno
  apply hne
  have heK : (censorEndSample cfg.sampleRate a b).toNat ≤ cfg.K := by
    unfold Config.K; omega
  have hpos : ∀ j, j < (censorEndSample cfg.sampleRate a b).toNat -
      (censorStartSample cfg.sampleRate a).toNat →
      (chunkStart + ((censorStartSample cfg.sampleRate a).toNat + j)) % cfg.L ≠ p := by
    intro j hj hpj
    exact absurd hpj.symm
      (hno ((censorStartSample cfg.sampleRate a).toNat + j) (Nat.le_add_right _ _)
        (by omega) (by omega))
  have hmute : muteCensor cfg chunkStart (censorStartSample cfg.sampleRate a).toNat
      (censorEndSample cfg.sampleRate a b).toNat d ch p = d ch p := by
    simp only [muteCensor, channelMap]
    by_cases hch : ch < cfg.channels
    · rw [if_pos hch]
      unfold muteRange
      exact foldl_update_of_forall_ne _ (fun _ _ => 0) (d ch) _ p hpos
    · rw [if_neg hch]
  have hrev : reverseCensor cfg chunkStart (censorStartSample cfg.sampleRate a).toNat
      (censorEndSample cfg.sampleRate a b).toNat d ch p = d ch p := by
    simp only [reverseCensor, channelMap]
    by_cases hch : ch < cfg.channels
    · rw [if_pos hch]
      unfold reverseRange
      exact foldl_update_of_forall_ne _
        (fun i _ => reverseValue cfg.L chunkStart (censorStartSample cfg.sampleRate a).toNat
          (censorEndSample cfg.sampleRate a b).toNat
          (min 480 (((censorEndSample cfg.sampleRate a b).toNat -
            (censorStartSample cfg.sampleRate a).toNat) / 4)) (d ch) i)
        (d ch) _ p hpos
    · rw [if_neg hch]
  unfold applyCensorSpan
  cases hmode : cfg.censorMode
  · exact hrev
  · exact hmute

theorem censorStartSample_eval1 : censorStartSample 1 1 = 0 := by
  norm_num [censorStartSample, cTrunc]

theorem censorEndSample_eval1 : censorEndSample 1 1 2 = 2 := by
  norm_num [censorEndSample, censorStartSample, cTrunc]

theorem censor_span_clamp_containment_witness :
    ∃ i, (censorStartSample 1 1).toNat ≤ i ∧ i < (censorEndSample 1 1 2).toNat ∧
      i < cfgMute1.K ∧ (0 : ℕ) = (0 + i) % cfgMute1.L := by
  have happ := (censor_span_clamp_containment cfgMute1 0 1 2).2.2.2 dOne 0 0
  exact happ (by
    show applyCensorSpan cfgMute1 0 1 2 dOne 0 0 ≠ dOne 0 0
    have h1 : applyCensorSpan cfgMute1 0 1 2 dOne 0 0 =
        muteRange cfgMute1.L 0 (censorStartSample 1 1).toNat
          (censorEndSample 1 1 2).toNat (dOne 0) 0 := rfl
    rw [h1, muteRange_apply, censorStartSample_eval1, censorEndSample_eval1, if_pos]
    · show (0 : ℚ) ≠ dOne 0 0
      simp [dOne]
    · exact ⟨0, by decide, by simp only [cfgMute1_L]; decide⟩)

/-- Counterexample to claim C4 as stated: for the one-word segment
`[4.99, 5]` the synthesized word gets `end = 5.04 > 5 = chunkSeconds`,
because the code computes `end = max(start + 0.05, min(5, end))` after
clamping `start`, which re-raises `end` above the chunk bound. -/
theorem word_timing_end_overflow :
    synthesizeTimings (499/100) 5 1 = [(499/100, 126/25)] ∧ ¬((126/25 : ℚ) ≤ 5) := by
  constructor
  · norm_num [synthesizeTimings, List.range_succ, min_def, max_def]
  · norm_num

/-- Claim C4 (amended): per-word timings distribute the segment's words
uniformly with `wordDuration = (t1 - t0) / wordCount`; each resulting
`start` lies in `[0, chunkSeconds]` and `end` satisfies
`end ≥ start + 0.05`, but `end` is only bounded by
`max chunkSeconds (start + 0.05)` — it exceeds `chunkSeconds` (by up to
0.05) exactly when `start > chunkSeconds − 0.05`. -/
theorem word_timing_synthesis (t0 t1 : ℚ) (wc : ℕ) (hwc : wc ≠ 0) :
    (synthesizeTimings t0 t1 wc).length = wc ∧
    (∀ k, k < wc → (synthesizeTimings t0 t1 wc).getD k (0, 0) =
      (max 0 (min 5 (t0 + (k : ℚ) * ((t1 - t0) / (wc : ℚ)))),
       max (max 0 (min 5 (t0 + (k : ℚ) * ((t1 - t0) / (wc : ℚ)))) + 1/20)
         (min 5 (t0 + (k : ℚ) * ((t1 - t0) / (wc : ℚ)) + (t1 - t0) / (wc : ℚ))))) ∧
    (∀ sE, sE ∈ synthesizeTimings t0 t1 wc →
      0 ≤ sE.1 ∧ sE.1 ≤ 5 ∧ sE.1 + 1/20 ≤ sE.2 ∧ sE.2 ≤ max 5 (sE.1 + 1/20)) := by
  unfold synthesizeTimings
  rw [if_neg hwc]
  refine ⟨by rw [List.length_map, List.length_range], ?_, ?_⟩
  · intro k hk
    rw [List.getD_eq_getElem _ _ (by rw [List.length_map, List.length_range]; exact hk)]
    simp only [List.getElem_map, List.getElem_range]
  · intro sE hsE
    obtain ⟨k, _, hk⟩ := List.mem_map.mp hsE
    subst hk
    dsimp only
    refine ⟨le_max_left 0 _, max_le (by norm_num) (min_le_left _ _), le_max_left _ _, ?_⟩
    exact max_le (le_max_right _ _) (le_max_of_le_left (min_le_left _ _))

theorem word_timing_synthesis_witness :
    (synthesizeTimings 0 1 1).length = 1 ∧
    (synthesizeTimings 0 1 1).getD 0 (0, 0) =
      (max 0 (min 5 (0 + (0 : ℚ) * ((1 - 0) / ((1 : ℕ) : ℚ)))),
       max (max 0 (min 5 (0 + (0 : ℚ) * ((1 - 0) / ((1 : ℕ) : ℚ)))) + 1/20)
         (min 5 (0 + (0 : ℚ) * ((1 - 0) / ((1 : ℕ) : ℚ)) + (1 - 0) / ((1 : ℕ) : ℚ)))) :=
  ⟨(word_timing_synthesis 0 1 1 (by decide)).1,
   (word_timing_synthesis 0 1 1 (by decide)).2.1 0 (by decide)⟩

-- Unfolding equations for `scanEvents`, by list shape.

theorem scanEvents_nil (lex : String → Bool) (u : Bool) (idx : ℕ) :
    scanEvents lex u [] idx = [] := rfl

theorem scanEvents_single (lex : String → Bool) (u : Bool) (w : WordSegment) (idx : ℕ) :
    scanEvents lex u [w] idx =
      if lex (normalizeText w.word) ∧ u then
        [ScanEvent.look1 idx (lex (normalizeText w.word))]
      else if lex (normalizeText w.word) then
        [ScanEvent.look1 idx true, ScanEvent.hit1 idx]
      else [ScanEvent.look1 idx false] := rfl

theorem scanEvents_cons2 (lex : String → Bool) (u : Bool) (w w2 : WordSegment)
    (rest2 : List WordSegment) (idx : ℕ) :
    scanEvents lex u (w :: w2 :: rest2) idx =
      if lex (normalizeText w.word) ∧ u then
        ScanEvent.look1 idx (lex (normalizeText w.word)) ::
          scanEvents lex u (w2 :: rest2) (idx + 1)
      else if lex (normalizeText (w.word ++ w2.word)) then
        (if u then
          (if lex (normalizeText w.word) then
            [ScanEvent.look1 idx true, ScanEvent.hit1 idx]
           else [ScanEvent.look1 idx false]) ++
            ScanEvent.look2 idx true :: scanEvents lex u (w2 :: rest2) (idx + 1)
         else
          (if lex (normalizeText w.word) then
            [ScanEvent.look1 idx true, ScanEvent.hit1 idx]
           else [ScanEvent.look1 idx false]) ++
            ScanEvent.look2 idx true :: ScanEvent.hit2 idx ::
              scanEvents lex u rest2 (idx + 2))
      else
        (if lex (normalizeText w.word) then
          [ScanEvent.look1 idx true, ScanEvent.hit1 idx]
         else [ScanEvent.look1 idx false]) ++
          ScanEvent.look2 idx false :: scanEvents lex u (w2 :: rest2) (idx + 1) := rfl

theorem scanHead_mem_index (c : Bool) (idx : ℕ) (e : ScanEvent)
    (he : e ∈ (if c then [ScanEvent.look1 idx true, ScanEvent.hit1 idx]
      else [ScanEvent.look1 idx false])) : e.index = idx := by
  by_cases hc : (c : Prop)
  · rw [if_pos hc] at he
    simp only [List.mem_cons, List.not_mem_nil, or_false] at he
    rcases he with rfl | rfl <;> rfl
  · rw [if_neg hc] at he
    simp only [List.mem_cons, List.not_mem_nil, or_false] at he
    subst he; rfl

theorem scanEvents_index_ge (lex : String → Bool) (u : Bool) :
    ∀ n ws, List.length ws ≤ n → ∀ idx e, e ∈ scanEvents lex u ws idx → idx ≤ e.index := by
  intro n
  induction n with
  | zero =>
    intro ws hws idx e he
    rw [List.length_eq_zero.mp (Nat.le_zero.mp hws), scanEvents_nil] at he
    exact absurd he (List.not_mem_nil e)
  | succ m ih =>
    intro ws hws idx e he
    match ws with
    | [] =>
      rw [scanEvents_nil] at he
      exact absurd he (List.not_mem_nil e)
    | [w] =>
      rw [scanEvents_single] at he
      by_cases h1 : lex (normalizeText w.word) ∧ u
      · rw [if_pos h1] at he
        simp only [List.mem_cons, List.not_mem_nil, or_false] at he
        subst he; exact le_refl idx
      · rw [if_neg h1] at he
        exact le_of_eq (scanHead_mem_index _ idx e he).symm
    | w :: w2 :: rest2 =>
      rw [scanEvents_cons2] at he
      have hr : (w2 :: rest2).length ≤ m := by simpa using Nat.le_of_succ_le_succ hws
      have hr2 : rest2.length ≤ m := le_trans (by simp) hr
      by_cases h1 : lex (normalizeText w.word) ∧ u
      · rw [if_pos h1] at he
        rcases List.mem_cons.mp he with rfl | he'
        · exact le_refl idx
        · exact le_trans (Nat.le_succ idx) (ih (w2 :: rest2) hr (idx + 1) e he')
      · rw [if_neg h1] at he
        by_cases h2 : lex (normalizeText (w.word ++ w2.word))
        · rw [if_pos h2] at he
          by_cases hu : (u : Prop)
          · rw [if_pos hu] at he
            rcases List.mem_append.mp he with he' | he'
            · exact le_of_eq (scanHead_mem_index _ idx e he').symm
            · rcases List.mem_cons.mp he' with rfl | he''
              · exact le_refl idx
              · exact le_trans (Nat.le_succ idx) (ih (w2 :: rest2) hr (idx + 1) e he'')
          · rw [if_neg hu] at he
            rcases List.mem_append.mp he with he' | he'
            · exact le_of_eq (scanHead_mem_index _ idx e he').symm
            · rcases List.mem_cons.mp he' with rfl | he''
              · exact le_refl idx
              · rcases List.mem_cons.mp he'' with rfl | he3
                · exact le_refl idx
                · exact le_trans (by omega) (ih rest2 hr2 (idx + 2) e he3)
        · rw [if_neg h2] at he
          rcases List.mem_append.mp he with he' | he'
          · exact le_of_eq (scanHead_mem_index _ idx e he').symm
          · rcases List.mem_cons.mp he' with rfl | he''
            · exact le_refl idx
            · exact le_trans (Nat.le_succ idx) (ih (w2 :: rest2) hr (idx + 1) e he'')

theorem scanHead_mem_cases (c : Bool) (idx : ℕ) (e : ScanEvent)
    (he : e ∈ (if c then [ScanEvent.look1 idx true, ScanEvent.hit1 idx]
      else [ScanEvent.look1 idx false])) :
    e = ScanEvent.look1 idx true ∨ e = ScanEvent.look1 idx false ∨ e = ScanEvent.hit1 idx := by
  by_cases hc : (c : Prop)
  · rw [if_pos hc] at he
    simp only [List.mem_cons, List.not_mem_nil, or_false] at he
    tauto
  · rw [if_neg hc] at he
    simp only [List.mem_cons, List.not_mem_nil, or_false] at he
    tauto

theorem scanEvents_hit2_consumes (lex : String → Bool) :
    ∀ n ws, List.length ws ≤ n → ∀ idx i,
      ScanEvent.hit2 i ∈ scanEvents lex false ws idx →
      ∀ e, e ∈ scanEvents lex false ws idx → e.index ≠ i + 1 := by
  intro n
  induction n with
  | zero =>
    intro ws hws idx i hh
    rw [List.length_eq_zero.mp (Nat.le_zero.mp hws), scanEvents_nil] at hh
    exact absurd hh (List.not_mem_nil _)
  | succ m ih =>
    intro ws hws idx i hh e he
    match ws with
    | [] =>
      rw [scanEvents_nil] at hh
      exact absurd hh (List.not_mem_nil _)
    | [w] =>
      rw [scanEvents_single, if_neg (by simp)] at hh
      rcases scanHead_mem_cases _ idx _ hh with h | h | h <;> simp at h
    | w :: w2 :: rest2 =>
      rw [scanEvents_cons2, if_neg (by simp)] at hh he
      have hr : (w2 :: rest2).length ≤ m := by simpa using Nat.le_of_succ_le_succ hws
      have hr2 : rest2.length ≤ m := le_trans (by simp) hr
      by_cases h2 : lex (normalizeText (w.word ++ w2.word))
      · rw [if_pos h2, if_neg (by simp)] at hh he
        rcases List.mem_append.mp hh with hh' | hh'
        · rcases scanHead_mem_cases _ idx _ hh' with h | h | h <;> simp at h
        · rcases List.mem_cons.mp hh' with heq | hh''
          · simp at heq
          · rcases List.mem_cons.mp hh'' with heq | hh3
            · -- hit2 i is the head hit: i = idx
              have hi : i = idx := by
                have := congrArg ScanEvent.index heq
                simpa [ScanEvent.index] using this
              subst hi
              rcases List.mem_append.mp he with he' | he'
              · rcases scanHead_mem_cases _ i _ he' with h | h | h <;>
                  (subst h; simp [ScanEvent.index])
              · rcases List.mem_cons.mp he' with rfl | he''
                · simp [ScanEvent.index]
                · rcases List.mem_cons.mp he'' with rfl | he3
                  · simp [ScanEvent.index]
                  · have := scanEvents_index_ge lex false rest2.length rest2 le_rfl (i + 2) e he3
                    omega
            · -- hit2 i comes from the recursive scan at idx + 2
              have hge : idx + 2 ≤ i := by
                have := scanEvents_index_ge lex false rest2.length rest2 le_rfl (idx + 2)
                  (ScanEvent.hit2 i) hh3
                simpa [ScanEvent.index] using this
              rcases List.mem_append.mp he with he' | he'
              · rcases scanHead_mem_cases _ idx _ he' with h | h | h <;>
                  (subst h; simp [ScanEvent.index]; omega)
              · rcases List.mem_cons.mp he' with rfl | he''
                · simp [ScanEvent.index]; omega
                · rcases List.mem_cons.mp he'' with rfl | he3
                  · simp [ScanEvent.index]; omega
                  · exact ih rest2 hr2 (idx + 2) i hh3 e he3
      · rw [if_neg h2] at hh he
        rcases List.mem_append.mp hh with hh' | hh'
        · rcases scanHead_mem_cases _ idx _ hh' with h | h | h <;> simp at h
        · rcases List.mem_cons.mp hh' with heq | hh''
          · simp at heq
          · have hge : idx + 1 ≤ i := by
              have := scanEvents_index_ge lex false (w2 :: rest2).length (w2 :: rest2) le_rfl
                (idx + 1) (ScanEvent.hit2 i) hh''
              simpa [ScanEvent.index] using this
            rcases List.mem_append.mp he with he' | he'
            · rcases scanHead_mem_cases _ idx _ he' with h | h | h <;>
                (subst h; simp [ScanEvent.index]; omega)
            · rcases List.mem_cons.mp he' with rfl | he''
              · simp [ScanEvent.index]; omega
              · exact ih (w2 :: rest2) hr (idx + 1) i hh'' e he''

theorem scanEvents_look2_performed (lex : String → Bool) :
    ∀ n ws, List.length ws ≤ n → ∀ idx i b1,
      ScanEvent.look1 i b1 ∈ scanEvents lex false ws idx →
      i + 1 < idx + ws.length →
      ∃ b2, ScanEvent.look2 i b2 ∈ scanEvents lex false ws idx := by
  intro n
  induction n with
  | zero =>
    intro ws hws idx i b1 hl
    rw [List.length_eq_zero.mp (Nat.le_zero.mp hws), scanEvents_nil] at hl
    exact absurd hl (List.not_mem_nil _)
  | succ m ih =>
    intro ws hws idx i b1 hl hlt
    match ws with
    | [] =>
      rw [scanEvents_nil] at hl
      exact absurd hl (List.not_mem_nil _)
    | [w] =>
      rw [scanEvents_single, if_neg (by simp)] at hl
      have hi : i = idx := by
        rcases scanHead_mem_cases _ idx _ hl with h | h | h <;>
          · have := congrArg ScanEvent.index h
            simpa [ScanEvent.index] using this
      subst hi
      simp at hlt
    | w :: w2 :: rest2 =>
      rw [scanEvents_cons2, if_neg (by simp)] at hl ⊢
      have hr : (w2 :: rest2).length ≤ m := by simpa using Nat.le_of_succ_le_succ hws
      have hr2 : rest2.length ≤ m := le_trans (by simp) hr
      by_cases h2 : lex (normalizeText (w.word ++ w2.word))
      · rw [if_pos h2, if_neg (by simp)] at hl ⊢
        rcases List.mem_append.mp hl with hl' | hl'
        · have hi : i = idx := by
            rcases scanHead_mem_cases _ idx _ hl' with h | h | h <;>
              · have := congrArg ScanEvent.index h
                simpa [ScanEvent.index] using this
          subst hi
          exact ⟨true, List.mem_append_right _ (List.mem_cons_self _ _)⟩
        · rcases List.mem_cons.mp hl' with heq | hl''
          · simp at heq
          · rcases List.mem_cons.mp hl'' with heq | hl3
            · simp at heq
            · have hlt' : i + 1 < (idx + 2) + rest2.length := by
                simp only [List.length_cons] at hlt
                omega
              obtain ⟨b2, hb2⟩ := ih rest2 hr2 (idx + 2) i b1 hl3 hlt'
              exact ⟨b2, List.mem_append_right _
                (List.mem_cons_of_mem _ (List.mem_cons_of_mem _ hb2))⟩
      · rw [if_neg h2] at hl ⊢
        rcases List.mem_append.mp hl with hl' | hl'
        · have hi : i = idx := by
            rcases scanHead_mem_cases _ idx _ hl' with h | h | h <;>
              · have := congrArg ScanEvent.index h
                simpa [ScanEvent.index] using this
          subst hi
          exact ⟨false, List.mem_append_right _ (List.mem_cons_self _ _)⟩
        · rcases List.mem_cons.mp hl' with heq | hl''
          · simp at heq
          · have hlt' : i + 1 < (idx + 1) + (w2 :: rest2).length := by
              simp only [List.length_cons] at hlt ⊢
              omega
            obtain ⟨b2, hb2⟩ := ih (w2 :: rest2) hr (idx + 1) i b1 hl'' hlt'
            exact ⟨b2, List.mem_append_right _ (List.mem_cons_of_mem _ hb2)⟩

theorem scanEvents_bigram_first_also_single (lex : String → Bool) :
    ∀ n ws, List.length ws ≤ n → ∀ idx i,
      ScanEvent.hit2 i ∈ scanEvents lex false ws idx →
      ScanEvent.look1 i true ∈ scanEvents lex false ws idx →
      ScanEvent.hit1 i ∈ scanEvents lex false ws idx := by
  intro n
  induction n with
  | zero =>
    intro ws hws idx i hh
    rw [List.length_eq_zero.mp (Nat.le_zero.mp hws), scanEvents_nil] at hh
    exact absurd hh (List.not_mem_nil _)
  | succ m ih =>
    intro ws hws idx i hh hl
    match ws with
    | [] =>
      rw [scanEvents_nil] at hh
      exact absurd hh (List.not_mem_nil _)
    | [w] =>
      rw [scanEvents_single, if_neg (by simp)] at hh
      rcases scanHead_mem_cases _ idx _ hh with h | h | h <;> simp at h
    | w :: w2 :: rest2 =>
      rw [scanEvents_cons2, if_neg (by simp)] at hh hl ⊢
      have hr : (w2 :: rest2).length ≤ m := by simpa using Nat.le_of_succ_le_succ hws
      have hr2 : rest2.length ≤ m := le_trans (by simp) hr
      by_cases h2 : lex (normalizeText (w.word ++ w2.word))
      · rw [if_pos h2, if_neg (by simp)] at hh hl ⊢
        rcases List.mem_append.mp hh with hh' | hh'
        · rcases scanHead_mem_cases _ idx _ hh' with h | h | h <;> simp at h
        · rcases List.mem_cons.mp hh' with heq | hh''
          · simp at heq
          · rcases List.mem_cons.mp hh'' with heq | hh3
            · -- the head bigram hit: i = idx
              have hi : i = idx := by
                have := congrArg ScanEvent.index heq
                simpa [ScanEvent.index] using this
              subst hi
              -- look1 i true must come from the head events, so the single lookup matched
              have hm1 : lex (normalizeText w.word) = true := by
                rcases List.mem_append.mp hl with hl' | hl'
                · by_cases hm : (lex (normalizeText w.word) : Prop)
                  · exact hm
                  · rw [if_neg hm] at hl'
                    simp only [List.mem_cons, List.not_mem_nil, or_false] at hl'
                    simp at hl'
                · exfalso
                  rcases List.mem_cons.mp hl' with heq2 | hl''
                  · simp at heq2
                  · rcases List.mem_cons.mp hl'' with heq2 | hl3
                    · simp at heq2
                    · have := scanEvents_index_ge lex false rest2.length rest2 le_rfl (i + 2)
                        (ScanEvent.look1 i true) hl3
                      simp [ScanEvent.index] at this
              exact List.mem_append_left _ (by rw [if_pos hm1]; simp)
            · -- the bigram hit is in the recursive scan
              have hge : idx + 2 ≤ i := by
                have := scanEvents_index_ge lex false rest2.length rest2 le_rfl (idx + 2)
                  (ScanEvent.hit2 i) hh3
                simpa [ScanEvent.index] using this
              have hl3 : ScanEvent.look1 i true ∈ scanEvents lex false rest2 (idx + 2) := by
                rcases List.mem_append.mp hl with hl' | hl'
                · exfalso
                  rcases scanHead_mem_cases _ idx _ hl' with h | h | h <;>
                    · have := congrArg ScanEvent.index h
                      simp [ScanEvent.index] at this
                      omega
                · rcases List.mem_cons.mp hl' with heq2 | hl''
                  · simp at heq2
                  · rcases List.mem_cons.mp hl'' with heq2 | hl3
                    · simp at heq2
                    · exact hl3
              exact List.mem_append_right _ (List.mem_cons_of_mem _ (List.mem_cons_of_mem _
                (ih rest2 hr2 (idx + 2) i hh3 hl3)))
      · rw [if_neg h2] at hh hl ⊢
        rcases List.mem_append.mp hh with hh' | hh'
        · rcases scanHead_mem_cases _ idx _ hh' with h | h | h <;> simp at h
        · rcases List.mem_cons.mp hh' with heq | hh''
          · simp at heq
          · have hge : idx + 1 ≤ i := by
              have := scanEvents_index_ge lex false (w2 :: rest2).length (w2 :: rest2) le_rfl
                (idx + 1) (ScanEvent.hit2 i) hh''
              simpa [ScanEvent.index] using this
            have hl'' : ScanEvent.look1 i true ∈ scanEvents lex false (w2 :: rest2) (idx + 1) := by
              rcases List.mem_append.mp hl with hl' | hl'
              · exfalso
                rcases scanHead_mem_cases _ idx _ hl' with h | h | h <;>
                  · have := congrArg ScanEvent.index h
                    simp [ScanEvent.index] at this
                    omega
              · rcases List.mem_cons.mp hl' with heq2 | hl3
                · simp at heq2
                · exact hl3
            exact List.mem_append_right _ (List.mem_cons_of_mem _
              (ih (w2 :: rest2) hr (idx + 1) i hh'' hl''))

/-- Claim C2 (amended): with `BufferUnderrun` clear, (a) a bigram hit at
index `i` leaves no scan event at index `i + 1` at all — the two words
at `i` and `i + 1` are consumed and the scan advances by 2, so in
particular the second word is never separately looked up; (b) the bigram
lookup at index `i` is performed whenever a next word exists — even when
the single-word lookup at `i` matched (the source's bigram check is an
independent `if`, not an `else if`); and (c) when the first word of a
matched bigram also matches the lexicon alone, it is additionally
censored as a single-word hit. -/
theorem bigram_scan_amended (lex : String → Bool) (ws : List WordSegment) (idx : ℕ) :
    (∀ i, ScanEvent.hit2 i ∈ scanEvents lex false ws idx →
      ∀ e, e ∈ scanEvents lex false ws idx → e.index ≠ i + 1) ∧
    (∀ i b1, ScanEvent.look1 i b1 ∈ scanEvents lex false ws idx →
      i + 1 < idx + ws.length →
      ∃ b2, ScanEvent.look2 i b2 ∈ scanEvents lex false ws idx) ∧
    (∀ i, ScanEvent.hit2 i ∈ scanEvents lex false ws idx →
      ScanEvent.look1 i true ∈ scanEvents lex false ws idx →
      ScanEvent.hit1 i ∈ scanEvents lex false ws idx) :=
  ⟨fun i hh e he => scanEvents_hit2_consumes lex ws.length ws le_rfl idx i hh e he,
   fun i b1 hl hlt => scanEvents_look2_performed lex ws.length ws le_rfl idx i b1 hl hlt,
   fun i hh hl => scanEvents_bigram_first_also_single lex ws.length ws le_rfl idx i hh hl⟩

/-- Counterexample to claim C2 as stated: with a lexicon containing both
"foo" and "foobar" and the transcribed words ["foo", "bar"], the single
word lookup at index 0 matches and the bigram lookup at index 0 is
nonetheless performed and also hits, so the first word of the matched
bigram is censored twice (and `profanityCount` rises by 2 for one word
pair). -/
theorem bigram_lookup_after_single_match :
    scanEvents lexFB false wordsFB 0 =
      [ScanEvent.look1 0 true, ScanEvent.hit1 0, ScanEvent.look2 0 true, ScanEvent.hit2 0] ∧
    ScanEvent.look1 0 true ∈ scanEvents lexFB false wordsFB 0 ∧
    ScanEvent.look2 0 true ∈ scanEvents lexFB false wordsFB 0 ∧
    ScanEvent.hit1 0 ∈ scanEvents lexFB false wordsFB 0 ∧
    ScanEvent.hit2 0 ∈ scanEvents lexFB false wordsFB 0 ∧
    (censorScan cfgMute1 lexFB false 0 wordsFB dOne).2 = 2 :=
  ⟨by decide, by decide, by decide, by decide, by decide, by decide⟩

theorem bigram_scan_amended_witness :
    ScanEvent.hit1 0 ∈ scanEvents lexFB false wordsFB 0 :=
  (bigram_scan_amended lexFB wordsFB 0).2.2 0 (by decide) (by decide)

-- Unfolding equations for the backtracking loop, by argument shape.

theorem backtrackFuel_zero (M : ℕ → ℕ → ℕ) (tw lw : List String) (i j : ℕ) :
    backtrackFuel M tw lw 0 i j = [] := rfl

theorem backtrackFuel_stop (M : ℕ → ℕ → ℕ) (tw lw : List String) (fuel : ℕ) :
    backtrackFuel M tw lw (fuel + 1) 0 0 = [] := rfl

theorem backtrackFuel_succ_left (M : ℕ → ℕ → ℕ) (tw lw : List String) (fuel i j : ℕ) :
    backtrackFuel M tw lw (fuel + 1) (i + 1) j =
      (if 0 < i + 1 ∧ 0 < j ∧ tw.getD i emptyStr = lw.getD (j - 1) emptyStr then
        ((i + 1 : ℤ) - 1, (j : ℤ) - 1) :: backtrackFuel M tw lw fuel i (j - 1)
      else if 0 < i + 1 ∧ 0 < j ∧ M (i + 1) j = M i (j - 1) + 1 then
        ((i + 1 : ℤ) - 1, (j : ℤ) - 1) :: backtrackFuel M tw lw fuel i (j - 1)
      else if 0 < j ∧ M (i + 1) j = M (i + 1) (j - 1) + 1 then
        ((-1 : ℤ), (j : ℤ) - 1) :: backtrackFuel M tw lw fuel (i + 1) (j - 1)
      else if 0 < i + 1 then backtrackFuel M tw lw fuel i j
      else []) := rfl

theorem backtrackFuel_succ_right (M : ℕ → ℕ → ℕ) (tw lw : List String) (fuel j : ℕ) :
    backtrackFuel M tw lw (fuel + 1) 0 (j + 1) =
      (if 0 < (0 : ℕ) ∧ 0 < j + 1 ∧ tw.getD (0 - 1) emptyStr = lw.getD j emptyStr then
        ((0 : ℤ) - 1, (j + 1 : ℤ) - 1) :: backtrackFuel M tw lw fuel (0 - 1) j
      else if 0 < (0 : ℕ) ∧ 0 < j + 1 ∧ M 0 (j + 1) = M (0 - 1) j + 1 then
        ((0 : ℤ) - 1, (j + 1 : ℤ) - 1) :: backtrackFuel M tw lw fuel (0 - 1) j
      else if 0 < j + 1 ∧ M 0 (j + 1) = M 0 j + 1 then
        ((-1 : ℤ), (j + 1 : ℤ) - 1) :: backtrackFuel M tw lw fuel 0 j
      else if 0 < (0 : ℕ) then backtrackFuel M tw lw fuel (0 - 1) (j + 1)
      else []) := rfl

theorem backtrackFuel_snd_nonneg (M : ℕ → ℕ → ℕ) (tw lw : List String) :
    ∀ fuel i j p, p ∈ backtrackFuel M tw lw fuel i j → 0 ≤ p.2 := by
  intro fuel
  induction fuel with
  | zero =>
    intro i j p hp
    rw [backtrackFuel_zero] at hp
    exact absurd hp (List.not_mem_nil p)
  | succ f ih =>
    intro i j p hp
    match i, j with
    | 0, 0 =>
      rw [backtrackFuel_stop] at hp
      exact absurd hp (List.not_mem_nil p)
    | i + 1, j =>
      rw [backtrackFuel_succ_left] at hp
      split_ifs at hp with c1 c2 c3 c4
      · rcases List.mem_cons.mp hp with rfl | hp'
        · simp only
          omega
        · exact ih i (j - 1) p hp'
      · rcases List.mem_cons.mp hp with rfl | hp'
        · simp only
          omega
        · exact ih i (j - 1) p hp'
      · rcases List.mem_cons.mp hp with rfl | hp'
        · simp only
          omega
        · exact ih (i + 1) (j - 1) p hp'
      · exact ih i j p hp
      · exact absurd hp (List.not_mem_nil p)
    | 0, j + 1 =>
      rw [backtrackFuel_succ_right] at hp
      split_ifs at hp with c1 c2 c3 c4
      · omega
      · omega
      · rcases List.mem_cons.mp hp with rfl | hp'
        · simp only
          omega
        · exact ih 0 j p hp'
      · omega
      · exact absurd hp (List.not_mem_nil p)

theorem emitAligned_cons (lw : List String) (orig : List WordSegment) (p : ℤ × ℤ)
    (rest : List (ℤ × ℤ)) (prevEnd : ℚ) :
    emitAligned lw orig (p :: rest) prevEnd =
      if (0 : ℤ) ≤ p.1 ∧ (0 : ℤ) ≤ p.2 then
        (⟨lw.getD p.2.toNat emptyStr, (orig.getD p.1.toNat default).startSec,
          (orig.getD p.1.toNat default).endSec,
          (orig.getD p.1.toNat default).confidence * (19/20)⟩ : WordSegment) ::
          emitAligned lw orig rest (orig.getD p.1.toNat default).endSec
      else if (0 : ℤ) ≤ p.2 then
        (⟨lw.getD p.2.toNat emptyStr, prevEnd, prevEnd + 3/10, 1/2⟩ : WordSegment) ::
          emitAligned lw orig rest (prevEnd + 3/10)
      else emitAligned lw orig rest prevEnd := rfl

theorem lastEndOf_concat (acc : List WordSegment) (sg : WordSegment) :
    lastEndOf (acc ++ [sg]) = sg.endSec := by
  unfold lastEndOf
  rw [List.getLast?_concat]

theorem foldl_buildStep_eq_emit (lw : List String) (orig : List WordSegment) :
    ∀ pairs acc, pairs.foldl (buildStep lw orig) acc =
      acc ++ emitAligned lw orig pairs (lastEndOf acc) := by
  intro pairs
  induction pairs with
  | nil => intro acc; simp [emitAligned]
  | cons p rest ih =>
    intro acc
    rw [List.foldl_cons, ih, emitAligned_cons]
    by_cases hc1 : (0 : ℤ) ≤ p.1 ∧ (0 : ℤ) ≤ p.2
    · have hb : buildStep lw orig acc p =
          acc ++ [⟨lw.getD p.2.toNat emptyStr, (orig.getD p.1.toNat default).startSec,
            (orig.getD p.1.toNat default).endSec,
            (orig.getD p.1.toNat default).confidence * (19/20)⟩] := by
        unfold buildStep
        rw [if_pos hc1]
      rw [hb, lastEndOf_concat, if_pos hc1, List.append_assoc]
      rfl
    · by_cases hc2 : (0 : ℤ) ≤ p.2
      · have hb : buildStep lw orig acc p =
            acc ++ [⟨lw.getD p.2.toNat emptyStr, lastEndOf acc, lastEndOf acc + 3/10, 1/2⟩] := by
          unfold buildStep
          rw [if_neg hc1, if_pos hc2]
        rw [hb, lastEndOf_concat, if_neg hc1, if_pos hc2, List.append_assoc]
        rfl
      · have hb : buildStep lw orig acc p = acc := by
          unfold buildStep
          rw [if_neg hc1, if_neg hc2]
        rw [hb, if_neg hc1, if_neg hc2]

theorem emitAligned_length (lw : List String) (orig : List WordSegment) :
    ∀ pairs prevEnd, (∀ p, p ∈ pairs → (0 : ℤ) ≤ p.2) →
      (emitAligned lw orig pairs prevEnd).length = pairs.length := by
  intro pairs
  induction pairs with
  | nil => intro prevEnd _; rfl
  | cons p rest ih =>
    intro prevEnd hall
    rw [emitAligned_cons]
    have hp2 : (0 : ℤ) ≤ p.2 := hall p (List.mem_cons_self p rest)
    have hrest : ∀ q, q ∈ rest → (0 : ℤ) ≤ q.2 :=
      fun q hq => hall q (List.mem_cons_of_mem p hq)
    by_cases hc1 : (0 : ℤ) ≤ p.1 ∧ (0 : ℤ) ≤ p.2
    · rw [if_pos hc1]
      simp only [List.length_cons, ih _ hrest]
    · rw [if_neg hc1, if_pos hp2]
      simp only [List.length_cons, ih _ hrest]

/-- Claim C9: the lyrics-alignment backtracking emits, for every
match/substitution pair, a `WordSegment` carrying the lyric word's text
with the transcribed word's start and end and its confidence × 0.95;
for every insertion (lyric word with no transcript counterpart) a
segment with `start` = the previous emitted segment's end (0 if none),
`end = start + 0.3` and confidence 0.5; and a deletion (transcribed word
with no lyric counterpart) produces no output: the produced list equals
`emitAligned` — the spec's per-pair emission rule — applied to the
alignment pairs with initial previous-end 0, there is exactly one output
segment per aligned pair, and every aligned pair references a lyric word
(deletions never enter the pair list). -/
theorem backtrack_alignment_emission (M : ℕ → ℕ → ℕ) (tw lw : List String)
    (orig : List WordSegment) :
    backtrackAlignment M tw lw orig = emitAligned lw orig (alignPairs M tw lw) 0 ∧
    (backtrackAlignment M tw lw orig).length = (alignPairs M tw lw).length ∧
    (∀ p, p ∈ alignPairs M tw lw → (0 : ℤ) ≤ p.2) := by
  have hsnd : ∀ p, p ∈ alignPairs M tw lw → (0 : ℤ) ≤ p.2 := by
    intro p hp
    exact backtrackFuel_snd_nonneg M tw lw (tw.length + lw.length) tw.length lw.length p
      (List.mem_reverse.mp hp)
  have heq : backtrackAlignment M tw lw orig = emitAligned lw orig (alignPairs M tw lw) 0 := by
    unfold backtrackAlignment buildSegments
    rw [foldl_buildStep_eq_emit]
    rfl
  exact ⟨heq, by rw [heq, emitAligned_length lw orig _ 0 hsnd], hsnd⟩

theorem backtrack_alignment_emission_witness :
    backtrackAlignment matrixW [strFoo] [strFoo] origW =
      emitAligned [strFoo] origW (alignPairs matrixW [strFoo] [strFoo]) 0 ∧
    (0 : ℤ) ≤ ((0 : ℤ), (0 : ℤ)).2 :=
  ⟨(backtrack_alignment_emission matrixW [strFoo] [strFoo] origW).1,
   (backtrack_alignment_emission matrixW [strFoo] [strFoo] origW).2.2 (0, 0) (by decide)⟩

theorem fill_lt_L (cfg : Config) (hV : cfg.Valid) (x : ℕ)
    (hx : (x : ℚ) < cfg.initialDelaySeconds * (cfg.sampleRate : ℚ) + 1) : x < cfg.L := by
  have hF : (1 : ℚ) ≤ (cfg.sampleRate : ℚ) := by exact_mod_cast hV.1
  have hD : (0 : ℚ) ≤ cfg.initialDelaySeconds := hV.2.2
  have harg : (0 : ℚ) ≤ (cfg.sampleRate : ℚ) * (cfg.initialDelaySeconds + 10) :=
    mul_nonneg (by positivity) (by linarith)
  have hfloor0 : (0 : ℤ) ≤ ⌊(cfg.sampleRate : ℚ) * (cfg.initialDelaySeconds + 10)⌋ :=
    Int.floor_nonneg.mpr harg
  have hLz : ((cfg.L : ℕ) : ℤ) = ⌊(cfg.sampleRate : ℚ) * (cfg.initialDelaySeconds + 10)⌋ := by
    unfold Config.L
    exact Int.toNat_of_nonneg hfloor0
  have hfl : (cfg.sampleRate : ℚ) * (cfg.initialDelaySeconds + 10) - 1 <
      ((⌊(cfg.sampleRate : ℚ) * (cfg.initialDelaySeconds + 10)⌋ : ℤ) : ℚ) :=
    Int.sub_one_lt_floor _
  have hLq : (cfg.sampleRate : ℚ) * (cfg.initialDelaySeconds + 10) - 1 < (cfg.L : ℚ) := by
    have : ((cfg.L : ℕ) : ℚ) = ((⌊(cfg.sampleRate : ℚ) * (cfg.initialDelaySeconds + 10)⌋ : ℤ) : ℚ) := by
      exact_mod_cast congrArg (fun z : ℤ => (z : ℚ)) hLz
    rw [this]
    exact hfl
  have hxq : (x : ℚ) < (cfg.L : ℚ) := by nlinarith
  exact_mod_cast hxq

theorem frameStep_fields (cfg : Config) (inp : ℕ → ℚ) (s : ProcState) :
    (frameStep cfg inp s).1.bufferUnderrun = s.bufferUnderrun ∧
    (frameStep cfg inp s).1.hasNewBuffer = s.hasNewBuffer ∧
    (frameStep cfg inp s).1.processingBuf = s.processingBuf ∧
    (frameStep cfg inp s).1.transcriptionInterval = s.transcriptionInterval ∧
    (frameStep cfg inp s).1.bufferCaptureTime = s.bufferCaptureTime ∧
    (frameStep cfg inp s).1.audioBuf = s.audioBuf ∧
    (frameStep cfg inp s).1.bufferWritePos = s.bufferWritePos ∧
    (frameStep cfg inp s).1.W = s.W + 1 :=
  ⟨rfl, rfl, rfl, rfl, rfl, rfl, rfl, rfl⟩

theorem frameStep_warming (cfg : Config) (inp : ℕ → ℚ) (s : ProcState)
    (hst : s.playbackStarted = false) :
    ((cfg.initialDelaySeconds ≤ (((s.W - s.R) % cfg.L : ℕ) : ℚ) / (cfg.sampleRate : ℚ)) →
      (frameStep cfg inp s).1.playbackStarted = true ∧
      (frameStep cfg inp s).1.wasPaused = s.wasPaused ∧
      (frameStep cfg inp s).1.R = s.R + 1) ∧
    (¬(cfg.initialDelaySeconds ≤ (((s.W - s.R) % cfg.L : ℕ) : ℚ) / (cfg.sampleRate : ℚ)) →
      (frameStep cfg inp s).1.playbackStarted = false ∧
      (frameStep cfg inp s).1.wasPaused = s.wasPaused ∧
      (frameStep cfg inp s).1.R = s.R ∧
      ∀ ch, (frameStep cfg inp s).2 ch = 0) := by
  constructor
  · intro hb
    have hb' : decide (cfg.initialDelaySeconds ≤
        (((s.W - s.R) % cfg.L : ℕ) : ℚ) / (cfg.sampleRate : ℚ)) = true := decide_eq_true hb
    unfold frameStep
    rw [hst]
    simp only [if_pos rfl, hb', if_true]
    refine ⟨?_, ?_, ?_⟩ <;> first | rfl | trivial
  · intro hb
    have hb' : decide (cfg.initialDelaySeconds ≤
        (((s.W - s.R) % cfg.L : ℕ) : ℚ) / (cfg.sampleRate : ℚ)) = false :=
      decide_eq_false hb
    unfold frameStep
    rw [hst]
    simp only [if_pos rfl, hb']
    refine ⟨?_, ?_, ?_, fun ch => by by_cases hch : ch < cfg.channels <;> simp [hch]⟩ <;>
      first | rfl | trivial

theorem frameStep_started (cfg : Config) (inp : ℕ → ℚ) (s : ProcState)
    (hst : s.playbackStarted = true) :
    (frameStep cfg inp s).1.playbackStarted = true ∧
    (frameStep cfg inp s).1.wasPaused =
      (if (((s.W - s.R) % cfg.L : ℕ) : ℚ) / (cfg.sampleRate : ℚ) <
          cfg.initialDelaySeconds - 2 ∧ s.wasPaused = false then true
       else if cfg.initialDelaySeconds ≤
          (((s.W - s.R) % cfg.L : ℕ) : ℚ) / (cfg.sampleRate : ℚ) ∧ s.wasPaused then false
       else s.wasPaused) ∧
    ((frameStep cfg inp s).1.wasPaused = false → (frameStep cfg inp s).1.R = s.R + 1) ∧
    ((frameStep cfg inp s).1.wasPaused = true → (frameStep cfg inp s).1.R = s.R ∧
      ∀ ch, (frameStep cfg inp s).2 ch = 0) := by
  unfold frameStep
  rw [hst]
  dsimp only
  simp only [Bool.true_eq_false, if_false]
  refine ⟨trivial, trivial, fun h => ?_, fun h => ?_⟩
  · rw [h]
    rfl
  · rw [h]
    exact ⟨rfl, fun ch => by by_cases hch : ch < cfg.channels <;> simp [hch]⟩

theorem frameStep_inv (cfg : Config) (hV : cfg.Valid) (inp : ℕ → ℚ) (s : ProcState)
    (h : GateInv cfg s) :
    GateInv cfg (frameStep cfg inp s).1 ∧
    ((frameStep cfg inp s).1.R = s.R ∨ (frameStep cfg inp s).1.R = s.R + 1) ∧
    fillOf s ≤ fillOf (frameStep cfg inp s).1 ∧
    (s.playbackStarted = true → (frameStep cfg inp s).1.playbackStarted = true ∧
      fillOf (frameStep cfg inp s).1 = fillOf s) := by
  obtain ⟨hRW, hwp, hlt, hge⟩ := h
  have hF0 : (0 : ℚ) < (cfg.sampleRate : ℚ) := by exact_mod_cast hV.1
  have hgap : (s.W - s.R) % cfg.L = fillOf s := Nat.mod_eq_of_lt (fill_lt_L cfg hV _ hlt)
  have hW : (frameStep cfg inp s).1.W = s.W + 1 := rfl
  cases hst : s.playbackStarted with
  | false =>
    have hw := frameStep_warming cfg inp s hst
    by_cases hb : cfg.initialDelaySeconds ≤
        (((s.W - s.R) % cfg.L : ℕ) : ℚ) / (cfg.sampleRate : ℚ)
    · obtain ⟨hps, hwp', hR⟩ := hw.1 hb
      have hfill : fillOf (frameStep cfg inp s).1 = fillOf s := by
        unfold fillOf
        rw [hW, hR]
        omega
      have hDF : cfg.initialDelaySeconds * (cfg.sampleRate : ℚ) ≤ (fillOf s : ℚ) := by
        rw [hgap] at hb
        exact (le_div_iff hF0).mp hb
      refine ⟨⟨?_, ?_, ?_, ?_⟩, Or.inr hR, ?_, ?_⟩
      · rw [hW, hR]; omega
      · rw [hwp', hwp]
      · rw [hfill]; exact hlt
      · intro _; rw [hfill]; exact hDF
      · rw [hfill]
      · intro hcontra; cases hcontra
    · obtain ⟨hps, hwp', hR, _⟩ := hw.2 hb
      have hfill : fillOf (frameStep cfg inp s).1 = fillOf s + 1 ∨
          fillOf (frameStep cfg inp s).1 = fillOf s := by
        unfold fillOf
        rw [hW, hR]
        omega
      have hlt2 : (fillOf s : ℚ) < cfg.initialDelaySeconds * (cfg.sampleRate : ℚ) := by
        rw [hgap] at hb
        exact (div_lt_iff hF0).mp (lt_of_not_le hb)
      refine ⟨⟨?_, ?_, ?_, ?_⟩, Or.inl hR, ?_, ?_⟩
      · rw [hW, hR]; omega
      · rw [hwp', hwp]
      · rcases hfill with hf | hf <;> rw [hf] <;> push_cast <;> linarith
      · intro hcontra; rw [hps] at hcontra; cases hcontra
      · rcases hfill with hf | hf <;> omega
      · intro hcontra; cases hcontra
  | true =>
    have hw := frameStep_started cfg inp s hst
    have hDF : cfg.initialDelaySeconds * (cfg.sampleRate : ℚ) ≤ (fillOf s : ℚ) := hge hst
    have hc1 : ¬((((s.W - s.R) % cfg.L : ℕ) : ℚ) / (cfg.sampleRate : ℚ) <
        cfg.initialDelaySeconds - 2 ∧ s.wasPaused = false) := by
      rintro ⟨hlt2, _⟩
      rw [hgap] at hlt2
      have hx : (fillOf s : ℚ) < (cfg.initialDelaySeconds - 2) * (cfg.sampleRate : ℚ) :=
        (div_lt_iff hF0).mp hlt2
      nlinarith
    have hc2 : ¬(cfg.initialDelaySeconds ≤
        (((s.W - s.R) % cfg.L : ℕ) : ℚ) / (cfg.sampleRate : ℚ) ∧ s.wasPaused = true) := by
      rintro ⟨_, hx⟩
      rw [hwp] at hx
      cases hx
    have hwp2 : (frameStep cfg inp s).1.wasPaused = false := by
      rw [hw.2.1, if_neg hc1, if_neg hc2, hwp]
    have hR : (frameStep cfg inp s).1.R = s.R + 1 := hw.2.2.1 hwp2
    have hfill : fillOf (frameStep cfg inp s).1 = fillOf s := by
      unfold fillOf
      rw [hW, hR]
      omega
    refine ⟨⟨?_, hwp2, ?_, ?_⟩, Or.inr hR, ?_, ?_⟩
    · rw [hW, hR]; omega
    · rw [hfill]; exact hlt
    · intro _; rw [hfill]; exact hDF
    · rw [hfill]
    · intro _; exact ⟨hw.1, hfill⟩

theorem accumStep_fields (cfg : Config) (m : ℚ) (st : ProcState) :
    (accumStep cfg m st).W = st.W ∧ (accumStep cfg m st).R = st.R ∧
    (accumStep cfg m st).playbackStarted = st.playbackStarted ∧
    (accumStep cfg m st).wasPaused = st.wasPaused ∧
    (accumStep cfg m st).bufferUnderrun = st.bufferUnderrun ∧
    (accumStep cfg m st).hasNewBuffer = st.hasNewBuffer ∧
    (accumStep cfg m st).transcriptionInterval = st.transcriptionInterval ∧
    (accumStep cfg m st).processingBuf = st.processingBuf ∧
    (accumStep cfg m st).bufferCaptureTime = st.bufferCaptureTime ∧
    (accumStep cfg m st).delay = st.delay := by
  unfold accumStep
  split <;> exact ⟨rfl, rfl, rfl, rfl, rfl, rfl, rfl, rfl, rfl, rfl⟩

theorem accumulateBlock_fields (cfg : Config) (history : ℕ → ℕ → ℚ) (f : ℕ) (s : ProcState) :
    (accumulateBlock cfg history f s).W = s.W ∧ (accumulateBlock cfg history f s).R = s.R ∧
    (accumulateBlock cfg history f s).playbackStarted = s.playbackStarted ∧
    (accumulateBlock cfg history f s).wasPaused = s.wasPaused ∧
    (accumulateBlock cfg history f s).bufferUnderrun = s.bufferUnderrun ∧
    (accumulateBlock cfg history f s).hasNewBuffer = s.hasNewBuffer ∧
    (accumulateBlock cfg history f s).transcriptionInterval = s.transcriptionInterval ∧
    (accumulateBlock cfg history f s).processingBuf = s.processingBuf ∧
    (accumulateBlock cfg history f s).bufferCaptureTime = s.bufferCaptureTime ∧
    (accumulateBlock cfg history f s).delay = s.delay := by
  have key : ∀ (l : List ℕ) (st : ProcState),
      ((l.foldl (fun st i => accumStep cfg (monoMix cfg (history (s.W + i))) st) st).W = st.W ∧
       (l.foldl (fun st i => accumStep cfg (monoMix cfg (history (s.W + i))) st) st).R = st.R ∧
       (l.foldl (fun st i => accumStep cfg (monoMix cfg (history (s.W + i))) st)
         st).playbackStarted = st.playbackStarted ∧
       (l.foldl (fun st i => accumStep cfg (monoMix cfg (history (s.W + i))) st)
         st).wasPaused = st.wasPaused ∧
       (l.foldl (fun st i => accumStep cfg (monoMix cfg (history (s.W + i))) st)
         st).bufferUnderrun = st.bufferUnderrun ∧
       (l.foldl (fun st i => accumStep cfg (monoMix cfg (history (s.W + i))) st)
         st).hasNewBuffer = st.hasNewBuffer ∧
       (l.foldl (fun st i => accumStep cfg (monoMix cfg (history (s.W + i))) st)
         st).transcriptionInterval = st.transcriptionInterval ∧
       (l.foldl (fun st i => accumStep cfg (monoMix cfg (history (s.W + i))) st)
         st).processingBuf = st.processingBuf ∧
       (l.foldl (fun st i => accumStep cfg (monoMix cfg (history (s.W + i))) st)
         st).bufferCaptureTime = st.bufferCaptureTime ∧
       (l.foldl (fun st i => accumStep cfg (monoMix cfg (history (s.W + i))) st)
         st).delay = st.delay) := by
    intro l
    induction l with
    | nil =>
      intro st
      exact ⟨rfl, rfl, rfl, rfl, rfl, rfl, rfl, rfl, rfl, rfl⟩
    | cons a t ih =>
      intro st
      rw [List.foldl_cons]
      obtain ⟨a1, a2, a3, a4, a5, a6, a7, a8, a9, a10⟩ :=
        accumStep_fields cfg (monoMix cfg (history (s.W + a))) st
      obtain ⟨b1, b2, b3, b4, b5, b6, b7, b8, b9, b10⟩ :=
        ih (accumStep cfg (monoMix cfg (history (s.W + a))) st)
      exact ⟨b1.trans a1, b2.trans a2, b3.trans a3, b4.trans a4, b5.trans a5, b6.trans a6,
        b7.trans a7, b8.trans a8, b9.trans a9, b10.trans a10⟩
  exact key (List.range f) s

theorem handoffCheck_fields (cfg : Config) (s : ProcState) :
    (handoffCheck cfg s).W = s.W ∧ (handoffCheck cfg s).R = s.R ∧
    (handoffCheck cfg s).playbackStarted = s.playbackStarted ∧
    (handoffCheck cfg s).wasPaused = s.wasPaused ∧
    (handoffCheck cfg s).bufferUnderrun = s.bufferUnderrun ∧
    (handoffCheck cfg s).delay = s.delay ∧
    (handoffCheck cfg s).audioBuf = s.audioBuf := by
  unfold handoffCheck
  split <;> exact ⟨rfl, rfl, rfl, rfl, rfl, rfl, rfl⟩

theorem frameFold_fields (cfg : Config) (history : ℕ → ℕ → ℚ) :
    ∀ (l : List ℕ) (st : ProcState),
      (frameFold cfg history l st).bufferUnderrun = st.bufferUnderrun ∧
      (frameFold cfg history l st).hasNewBuffer = st.hasNewBuffer ∧
      (frameFold cfg history l st).processingBuf = st.processingBuf ∧
      (frameFold cfg history l st).transcriptionInterval = st.transcriptionInterval ∧
      (frameFold cfg history l st).bufferCaptureTime = st.bufferCaptureTime ∧
      (frameFold cfg history l st).audioBuf = st.audioBuf ∧
      (frameFold cfg history l st).bufferWritePos = st.bufferWritePos ∧
      (frameFold cfg history l st).W = st.W + l.length := by
  intro l
  induction l with
  | nil =>
    intro st
    exact ⟨rfl, rfl, rfl, rfl, rfl, rfl, rfl, rfl⟩
  | cons a t ih =>
    intro st
    have hstep := frameStep_fields cfg (history st.W) st
    obtain ⟨a1, a2, a3, a4, a5, a6, a7, a8⟩ := hstep
    obtain ⟨b1, b2, b3, b4, b5, b6, b7, b8⟩ := ih (frameStep cfg (history st.W) st).1
    refine ⟨b1.trans a1, b2.trans a2, b3.trans a3, b4.trans a4, b5.trans a5, b6.trans a6,
      b7.trans a7, ?_⟩
    show (frameFold cfg history t (frameStep cfg (history st.W) st).1).W = st.W + (a :: t).length
    rw [b8, a8]
    simp only [List.length_cons]
    omega

theorem frameFold_inv (cfg : Config) (hV : cfg.Valid) (history : ℕ → ℕ → ℚ) :
    ∀ (l : List ℕ) (st : ProcState), GateInv cfg st →
      GateInv cfg (frameFold cfg history l st) ∧
      (frameFold cfg history l st).R ≤ st.R + l.length ∧
      fillOf st ≤ fillOf (frameFold cfg history l st) ∧
      (st.playbackStarted = true → (frameFold cfg history l st).playbackStarted = true ∧
        fillOf (frameFold cfg history l st) = fillOf st) := by
  intro l
  induction l with
  | nil =>
    intro st h
    exact ⟨h, Nat.le_add_right _ _, le_refl _, fun hs => ⟨hs, rfl⟩⟩
  | cons a t ih =>
    intro st h
    obtain ⟨hInv, hRor, hfill, hstart⟩ := frameStep_inv cfg hV (history st.W) st h
    obtain ⟨ihInv, ihR, ihfill, ihstart⟩ := ih (frameStep cfg (history st.W) st).1 hInv
    refine ⟨ihInv, ?_, le_trans hfill ihfill, ?_⟩
    · show (frameFold cfg history t (frameStep cfg (history st.W) st).1).R ≤
        st.R + (a :: t).length
      simp only [List.length_cons]
      rcases hRor with hr | hr <;> omega
    · intro hs
      obtain ⟨hps, hfeq⟩ := hstart hs
      obtain ⟨ips, ifeq⟩ := ihstart hps
      refine ⟨ips, ?_⟩
      show fillOf (frameFold cfg history t (frameStep cfg (history st.W) st).1) = fillOf st
      rw [ifeq, hfeq]

theorem GateInv_congr (cfg : Config) (s t : ProcState) (hW : t.W = s.W) (hR : t.R = s.R)
    (hwp : t.wasPaused = s.wasPaused) (hst : t.playbackStarted = s.playbackStarted)
    (h : GateInv cfg s) : GateInv cfg t := by
  obtain ⟨h1, h2, h3, h4⟩ := h
  have hf : fillOf t = fillOf s := by unfold fillOf; rw [hW, hR]
  refine ⟨by rw [hW, hR]; exact h1, by rw [hwp]; exact h2, by rw [hf]; exact h3, ?_⟩
  intro hx
  rw [hf]
  exact h4 (by rw [← hst]; exact hx)

theorem processCall_inv (cfg : Config) (hV : cfg.Valid) (history : ℕ → ℕ → ℚ)
    (f : ℕ) (s : ProcState) (h : GateInv cfg s) :
    GateInv cfg (processCall cfg history f s) ∧
    (processCall cfg history f s).W = s.W + f ∧
    (processCall cfg history f s).R ≤ s.R + f ∧
    fillOf s ≤ fillOf (processCall cfg history f s) ∧
    (s.playbackStarted = true → (processCall cfg history f s).playbackStarted = true ∧
      fillOf (processCall cfg history f s) = fillOf s) ∧
    (processCall cfg history f s).bufferUnderrun = s.bufferUnderrun ∧
    (processCall cfg history f s).wasPaused = false := by
  obtain ⟨aW, aR, aP, awp, aU, _, _, _, _, _⟩ := accumulateBlock_fields cfg history f s
  obtain ⟨hW2, hR2, hP2, hwp2, hU2, _, _⟩ := handoffCheck_fields cfg
    { accumulateBlock cfg history f s with
        transcriptionInterval := (accumulateBlock cfg history f s).transcriptionInterval + f }
  have h2 : GateInv cfg (handoffCheck cfg
      { accumulateBlock cfg history f s with
          transcriptionInterval := (accumulateBlock cfg history f s).transcriptionInterval + f }) :=
    GateInv_congr cfg s _ (hW2.trans aW) (hR2.trans aR) (hwp2.trans awp) (hP2.trans aP) h
  obtain ⟨fInv, fR, ffill, fstart⟩ := frameFold_inv cfg hV history (List.range f) _ h2
  obtain ⟨gU, _, _, _, _, _, _, gW⟩ := frameFold_fields cfg history (List.range f)
    (handoffCheck cfg
      { accumulateBlock cfg history f s with
          transcriptionInterval := (accumulateBlock cfg history f s).transcriptionInterval + f })
  have hfill2 : fillOf (handoffCheck cfg
      { accumulateBlock cfg history f s with
          transcriptionInterval := (accumulateBlock cfg history f s).transcriptionInterval + f }) =
      fillOf s := by
    unfold fillOf
    rw [hW2.trans aW, hR2.trans aR]
  refine ⟨GateInv_congr cfg _ _ rfl rfl rfl rfl fInv, ?_, ?_, ?_, ?_, ?_, ?_⟩
  · show (frameFold cfg history (List.range f) _).W = s.W + f
    rw [gW, hW2.trans aW, List.length_range]
  · show (frameFold cfg history (List.range f) _).R ≤ s.R + f
    calc (frameFold cfg history (List.range f) _).R ≤ _ + (List.range f).length := fR
    _ = s.R + f := by rw [hR2.trans aR, List.length_range]
  · show fillOf s ≤ fillOf (frameFold cfg history (List.range f) _)
    rw [← hfill2]
    exact ffill
  · intro hs
    have hs2 : (handoffCheck cfg
        { accumulateBlock cfg history f s with
            transcriptionInterval := (accumulateBlock cfg history f s).transcriptionInterval + f
        }).playbackStarted = true := by
      rw [hP2.trans aP]
      exact hs
    obtain ⟨fps, ffe⟩ := fstart hs2
    refine ⟨fps, ?_⟩
    show fillOf (frameFold cfg history (List.range f)
      (handoffCheck cfg
        { accumulateBlock cfg history f s with
            transcriptionInterval := (accumulateBlock cfg history f s).transcriptionInterval + f
        })) = fillOf s
    rw [ffe, hfill2]
  · show (frameFold cfg history (List.range f) _).bufferUnderrun = s.bufferUnderrun
    rw [gU, hU2.trans aU]
  · exact fInv.2.1

theorem reachable_GateInv (cfg : Config) (hV : cfg.Valid) (history : ℕ → ℕ → ℚ)
    (s : ProcState) (hr : Reachable cfg history s) : GateInv cfg s := by
  induction hr with
  | start =>
    refine ⟨le_refl 0, rfl, ?_, ?_⟩
    · have h0 : fillOf startState = 0 := rfl
      rw [h0]
      have : (0 : ℚ) ≤ cfg.initialDelaySeconds * (cfg.sampleRate : ℚ) :=
        mul_nonneg hV.2.2 (by positivity)
      push_cast
      linarith
    · intro hx
      cases hx
  | step f s hr ih => exact (processCall_inv cfg hV history f s ih).1

theorem gateOf_warming_iff (s : ProcState) :
    gateOf s = GateState.Warming ↔ s.playbackStarted = false := by
  unfold gateOf
  cases hst : s.playbackStarted
  · simp
  · simp only [Bool.true_eq_false, if_neg (by simp : ¬(true = false))]
    cases s.wasPaused <;> simp

theorem gateOf_playing_iff (s : ProcState) :
    gateOf s = GateState.Playing ↔ s.playbackStarted = true ∧ s.wasPaused = false := by
  unfold gateOf
  cases hst : s.playbackStarted
  · simp
  · simp only [Bool.true_eq_false, if_neg (by simp : ¬(true = false))]
    cases s.wasPaused <;> simp

theorem gateOf_paused_iff (s : ProcState) :
    gateOf s = GateState.Paused ↔ s.playbackStarted = true ∧ s.wasPaused = true := by
  unfold gateOf
  cases hst : s.playbackStarted
  · simp
  · simp only [Bool.true_eq_false, if_neg (by simp : ¬(true = false))]
    cases s.wasPaused <;> simp

theorem frameStep_WR (cfg : Config) (inp : ℕ → ℚ) (t : ProcState) :
    (frameStep cfg inp t).1.W = t.W + 1 ∧
    ((frameStep cfg inp t).1.R = t.R ∨ (frameStep cfg inp t).1.R = t.R + 1) := by
  refine ⟨rfl, ?_⟩
  unfold frameStep
  dsimp only
  split_ifs <;> simp

/-- Claim C5: the playback gate is a three-state machine driven per
output frame by the fill `W - R`: Warming → Playing exactly when
`fill ≥ initialDelay · F`; Playing → Paused exactly when
`fill < (initialDelay - 2) · F`; Paused → Playing exactly when
`fill ≥ initialDelay · F` (and no other transitions occur); when the
frame ends outside Playing the emitted frame is exactly zero in every
channel and `R` does not advance, and exactly when it ends in Playing
`R` advances by one. -/
theorem playback_gate_machine (cfg : Config) (inp : ℕ → ℚ) (s : ProcState)
    (hF : 0 < cfg.sampleRate) (hRW : s.R ≤ s.W) (hL : s.W - s.R < cfg.L)
    (hwarm : gateOf s = GateState.Warming → s.wasPaused = false) :
    (gateOf s = GateState.Warming →
      (gateOf (frameStep cfg inp s).1 = GateState.Playing ↔
        cfg.initialDelaySeconds * (cfg.sampleRate : ℚ) ≤ ((s.W - s.R : ℕ) : ℚ)) ∧
      (gateOf (frameStep cfg inp s).1 = GateState.Playing ∨
        gateOf (frameStep cfg inp s).1 = GateState.Warming)) ∧
    (gateOf s = GateState.Playing →
      (gateOf (frameStep cfg inp s).1 = GateState.Paused ↔
        ((s.W - s.R : ℕ) : ℚ) < (cfg.initialDelaySeconds - 2) * (cfg.sampleRate : ℚ)) ∧
      (gateOf (frameStep cfg inp s).1 = GateState.Paused ∨
        gateOf (frameStep cfg inp s).1 = GateState.Playing)) ∧
    (gateOf s = GateState.Paused →
      (gateOf (frameStep cfg inp s).1 = GateState.Playing ↔
        cfg.initialDelaySeconds * (cfg.sampleRate : ℚ) ≤ ((s.W - s.R : ℕ) : ℚ)) ∧
      (gateOf (frameStep cfg inp s).1 = GateState.Playing ∨
        gateOf (frameStep cfg inp s).1 = GateState.Paused)) ∧
    (gateOf (frameStep cfg inp s).1 ≠ GateState.Playing →
      (∀ ch, (frameStep cfg inp s).2 ch = 0) ∧ (frameStep cfg inp s).1.R = s.R) ∧
    (gateOf (frameStep cfg inp s).1 = GateState.Playing →
      (frameStep cfg inp s).1.R = s.R + 1) := by
  have hF0 : (0 : ℚ) < (cfg.sampleRate : ℚ) := by exact_mod_cast hF
  have hgap : (s.W - s.R) % cfg.L = s.W - s.R := Nat.mod_eq_of_lt hL
  have hdiv : ∀ q : ℚ, (q ≤ (((s.W - s.R) % cfg.L : ℕ) : ℚ) / (cfg.sampleRate : ℚ) ↔
      q * (cfg.sampleRate : ℚ) ≤ ((s.W - s.R : ℕ) : ℚ)) := by
    intro q
    rw [hgap]
    exact le_div_iff hF0
  have hdiv2 : ∀ q : ℚ, ((((s.W - s.R) % cfg.L : ℕ) : ℚ) / (cfg.sampleRate : ℚ) < q ↔
      ((s.W - s.R : ℕ) : ℚ) < q * (cfg.sampleRate : ℚ)) := by
    intro q
    rw [hgap]
    exact div_lt_iff hF0
  cases hst : s.playbackStarted with
  | false =>
    have hwpf : s.wasPaused = false := hwarm ((gateOf_warming_iff s).mpr hst)
    have hw := frameStep_warming cfg inp s hst
    by_cases hb : cfg.initialDelaySeconds ≤
        (((s.W - s.R) % cfg.L : ℕ) : ℚ) / (cfg.sampleRate : ℚ)
    · obtain ⟨hps, hwp', hR⟩ := hw.1 hb
      have hpost : gateOf (frameStep cfg inp s).1 = GateState.Playing :=
        (gateOf_playing_iff _).mpr ⟨hps, hwp'.trans hwpf⟩
      refine ⟨fun _ => ⟨?_, Or.inl hpost⟩, ?_, ?_, ?_, fun _ => hR⟩
      · constructor
        · intro _
          exact (hdiv cfg.initialDelaySeconds).mp hb
        · intro _
          exact hpost
      · intro hpl
        rw [(gateOf_playing_iff s).mp hpl |>.1] at hst
        cases hst
      · intro hpa
        rw [(gateOf_paused_iff s).mp hpa |>.1] at hst
        cases hst
      · intro hne
        exact absurd hpost hne
    · obtain ⟨hps, hwp', hR, hout⟩ := hw.2 hb
      have hpost : gateOf (frameStep cfg inp s).1 = GateState.Warming :=
        (gateOf_warming_iff _).mpr hps
      refine ⟨fun _ => ⟨?_, Or.inr hpost⟩, ?_, ?_, fun _ => ⟨hout, hR⟩, ?_⟩
      · constructor
        · intro hpl
          rw [hpl] at hpost
          cases hpost
        · intro hDF
          exact absurd ((hdiv cfg.initialDelaySeconds).mpr hDF) hb
      · intro hpl
        rw [(gateOf_playing_iff s).mp hpl |>.1] at hst
        cases hst
      · intro hpa
        rw [(gateOf_paused_iff s).mp hpa |>.1] at hst
        cases hst
      · intro hpl
        rw [hpl] at hpost
        cases hpost
  | true =>
    have hw := frameStep_started cfg inp s hst
    have hps : (frameStep cfg inp s).1.playbackStarted = true := hw.1
    cases hwp : s.wasPaused with
    | false =>
      have hc2 : ¬(cfg.initialDelaySeconds ≤
          (((s.W - s.R) % cfg.L : ℕ) : ℚ) / (cfg.sampleRate : ℚ) ∧ s.wasPaused = true) := by
        rintro ⟨_, hx⟩
        rw [hwp] at hx
        cases hx
      by_cases hb : (((s.W - s.R) % cfg.L : ℕ) : ℚ) / (cfg.sampleRate : ℚ) <
          cfg.initialDelaySeconds - 2
      · have hwp2 : (frameStep cfg inp s).1.wasPaused = true := by
          rw [hw.2.1, if_pos ⟨hb, hwp⟩]
        obtain ⟨hR, hout⟩ := hw.2.2.2 hwp2
        have hpost : gateOf (frameStep cfg inp s).1 = GateState.Paused :=
          (gateOf_paused_iff _).mpr ⟨hps, hwp2⟩
        refine ⟨?_, fun _ => ⟨?_, Or.inl hpost⟩, ?_, fun _ => ⟨hout, hR⟩, ?_⟩
        · intro hwm
          rw [(gateOf_warming_iff s).mp hwm] at hst
          cases hst
        · exact ⟨fun _ => (hdiv2 _).mp hb, fun _ => hpost⟩
        · intro hpa
          rw [((gateOf_paused_iff s).mp hpa).2] at hwp
          cases hwp
        · intro hpl
          rw [hpl] at hpost
          cases hpost
      · have hwp2 : (frameStep cfg inp s).1.wasPaused = false := by
          rw [hw.2.1, if_neg (fun hx => hb hx.1), if_neg hc2, hwp]
        have hR := hw.2.2.1 hwp2
        have hpost : gateOf (frameStep cfg inp s).1 = GateState.Playing :=
          (gateOf_playing_iff _).mpr ⟨hps, hwp2⟩
        refine ⟨?_, fun _ => ⟨?_, Or.inr hpost⟩, ?_, ?_, fun _ => hR⟩
        · intro hwm
          rw [(gateOf_warming_iff s).mp hwm] at hst
          cases hst
        · constructor
          · intro hpa
            rw [hpa] at hpost
            cases hpost
          · intro hlt
            exact absurd ((hdiv2 _).mpr hlt) hb
        · intro hpa
          rw [((gateOf_paused_iff s).mp hpa).2] at hwp
          cases hwp
        · intro hne
          exact absurd hpost hne
    | true =>
      have hc1 : ¬((((s.W - s.R) % cfg.L : ℕ) : ℚ) / (cfg.sampleRate : ℚ) <
          cfg.initialDelaySeconds - 2 ∧ s.wasPaused = false) := by
        rintro ⟨_, hx⟩
        rw [hwp] at hx
        cases hx
      by_cases hb : cfg.initialDelaySeconds ≤
          (((s.W - s.R) % cfg.L : ℕ) : ℚ) / (cfg.sampleRate : ℚ)
      · have hwp2 : (frameStep cfg inp s).1.wasPaused = false := by
          rw [hw.2.1, if_neg hc1, if_pos ⟨hb, hwp⟩]
        have hR := hw.2.2.1 hwp2
        have hpost : gateOf (frameStep cfg inp s).1 = GateState.Playing :=
          (gateOf_playing_iff _).mpr ⟨hps, hwp2⟩
        refine ⟨?_, ?_, fun _ => ⟨?_, Or.inl hpost⟩, ?_, fun _ => hR⟩
        · intro hwm
          rw [(gateOf_warming_iff s).mp hwm] at hst
          cases hst
        · intro hpl
          rw [((gateOf_playing_iff s).mp hpl).2] at hwp
          cases hwp
        · exact ⟨fun _ => (hdiv _).mp hb, fun _ => hpost⟩
        · intro hne
          exact absurd hpost hne
      · have hwp2 : (frameStep cfg inp s).1.wasPaused = true := by
          rw [hw.2.1, if_neg hc1, if_neg (fun hx => hb hx.1), hwp]
        obtain ⟨hR, hout⟩ := hw.2.2.2 hwp2
        have hpost : gateOf (frameStep cfg inp s).1 = GateState.Paused :=
          (gateOf_paused_iff _).mpr ⟨hps, hwp2⟩
        refine ⟨?_, ?_, fun _ => ⟨?_, Or.inr hpost⟩, fun _ => ⟨hout, hR⟩, ?_⟩
        · intro hwm
          rw [(gateOf_warming_iff s).mp hwm] at hst
          cases hst
        · intro hpl
          rw [((gateOf_playing_iff s).mp hpl).2] at hwp
          cases hwp
        · constructor
          · intro hpl
            rw [hpl] at hpost
            cases hpost
          · intro hDF
            exact absurd ((hdiv _).mpr hDF) hb
        · intro hpl
          rw [hpl] at hpost
          cases hpost

theorem playback_gate_machine_witness :
    gateOf (frameStep cfgMute1 (fun _ => 0) sWarm10).1 = GateState.Playing :=
  ((playback_gate_machine cfgMute1 (fun _ => 0) sWarm10 (by decide) (by decide)
      (by simp only [cfgMute1_L]; decide) (fun _ => rfl)).1 rfl).1.mpr
    (by norm_num [cfgMute1, sWarm10, startState])

theorem cfgMute1_valid : cfgMute1.Valid :=
  ⟨by decide, by decide, by norm_num [cfgMute1]⟩

/-- Claim C6: in every call to `process`, the write cursor advances
exactly once per frame and the read cursor at most once per frame, so
across a whole call `W` advances by exactly the block size, `R` by at
most the block size, and the fill `W - R` never decreases; once playback
has started the fill stays constant across calls, the pause condition
`fill < (initialDelay - 2) · F` is never satisfied in a reachable
playing state, and the `Paused` state is unreachable through `process`
alone. -/
theorem process_fill_never_decreases (cfg : Config) (history : ℕ → ℕ → ℚ) (hV : cfg.Valid)
    (s : ProcState) (hr : Reachable cfg history s) (f : ℕ) :
    (∀ (t : ProcState) (inp : ℕ → ℚ), (frameStep cfg inp t).1.W = t.W + 1 ∧
      ((frameStep cfg inp t).1.R = t.R ∨ (frameStep cfg inp t).1.R = t.R + 1)) ∧
    (processCall cfg history f s).W = s.W + f ∧
    (processCall cfg history f s).R ≤ s.R + f ∧
    fillOf s ≤ fillOf (processCall cfg history f s) ∧
    (s.playbackStarted = true → fillOf (processCall cfg history f s) = fillOf s) ∧
    (s.playbackStarted = true →
      ¬((fillOf s : ℚ) < (cfg.initialDelaySeconds - 2) * (cfg.sampleRate : ℚ))) ∧
    gateOf s ≠ GateState.Paused ∧
    gateOf (processCall cfg history f s) ≠ GateState.Paused := by
  have hInv := reachable_GateInv cfg hV history s hr
  have hpc := processCall_inv cfg hV history f s hInv
  refine ⟨fun t inp => frameStep_WR cfg inp t, hpc.2.1, hpc.2.2.1, hpc.2.2.2.1,
    fun hs => (hpc.2.2.2.2.1 hs).2, ?_, ?_, ?_⟩
  · intro hs hlt
    have hDF := hInv.2.2.2 hs
    have hF0 : (0 : ℚ) < (cfg.sampleRate : ℚ) := by exact_mod_cast hV.1
    nlinarith
  · intro hpa
    have hx := hInv.2.1
    rw [((gateOf_paused_iff s).mp hpa).2] at hx
    cases hx
  · intro hpa
    have hx := hpc.2.2.2.2.2.2
    rw [((gateOf_paused_iff _).mp hpa).2] at hx
    cases hx

theorem process_fill_never_decreases_witness :
    (processCall cfgMute1 histZ 1 startState).W = startState.W + 1 :=
  (process_fill_never_decreases cfgMute1 histZ cfgMute1_valid startState
    Reachable.start 1).2.1

theorem accumulateBlock_spec (cfg : Config) (history : ℕ → ℕ → ℚ) (s : ProcState) :
    ∀ f, s.bufferWritePos + f ≤ cfg.K →
      (accumulateBlock cfg history f s).bufferWritePos = s.bufferWritePos + f ∧
      (∀ i, i < f → (accumulateBlock cfg history f s).audioBuf (s.bufferWritePos + i) =
        monoMix cfg (history (s.W + i))) ∧
      (∀ j, j < s.bufferWritePos → (accumulateBlock cfg history f s).audioBuf j = s.audioBuf j) := by
  intro f
  induction f with
  | zero =>
    intro _
    exact ⟨rfl, fun i hi => absurd hi (Nat.not_lt_zero i), fun _ _ => rfl⟩
  | succ g ih =>
    intro hle
    obtain ⟨ibw, icontent, iold⟩ := ih (by omega)
    have hstep : accumulateBlock cfg history (g + 1) s =
        accumStep cfg (monoMix cfg (history (s.W + g))) (accumulateBlock cfg history g s) := by
      unfold accumulateBlock
      rw [List.range_succ, List.foldl_append, List.foldl_cons, List.foldl_nil]
    have hlt : (accumulateBlock cfg history g s).bufferWritePos < cfg.K := by
      rw [ibw]; omega
    have happ : accumStep cfg (monoMix cfg (history (s.W + g))) (accumulateBlock cfg history g s) =
        { accumulateBlock cfg history g s with
            audioBuf := Function.update (accumulateBlock cfg history g s).audioBuf
              (accumulateBlock cfg history g s).bufferWritePos (monoMix cfg (history (s.W + g)))
            bufferWritePos := (accumulateBlock cfg history g s).bufferWritePos + 1 } := by
      unfold accumStep
      rw [if_pos hlt]
    rw [hstep, happ]
    refine ⟨?_, ?_, ?_⟩
    · show (accumulateBlock cfg history g s).bufferWritePos + 1 = s.bufferWritePos + (g + 1)
      omega
    · intro i hi
      show Function.update (accumulateBlock cfg history g s).audioBuf
        (accumulateBlock cfg history g s).bufferWritePos (monoMix cfg (history (s.W + g)))
        (s.bufferWritePos + i) = monoMix cfg (history (s.W + i))
      rcases Nat.lt_succ_iff_lt_or_eq.mp hi with hig | hig
      · rw [Function.update_noteq (by omega)]
        exact icontent i hig
      · subst hig
        have hx : s.bufferWritePos + i = (accumulateBlock cfg history i s).bufferWritePos := by
          omega
        rw [hx]
        exact Function.update_same _ _ _
    · intro j hj
      show Function.update (accumulateBlock cfg history g s).audioBuf
        (accumulateBlock cfg history g s).bufferWritePos (monoMix cfg (history (s.W + g))) j =
        s.audioBuf j
      rw [Function.update_noteq (by omega)]
      exact iold j hj

/-- General (saturating) account of the mono-accumulation loop: the
write position saturates at `K`, every frame offered while the buffer
still has room lands at the next slot, frames offered after saturation
are dropped, and slots below the initial write position are untouched. -/
theorem accumulateBlock_sat (cfg : Config) (history : ℕ → ℕ → ℚ) (s : ProcState)
    (hbw0 : s.bufferWritePos ≤ cfg.K) :
    ∀ f,
      (accumulateBlock cfg history f s).bufferWritePos = min (s.bufferWritePos + f) cfg.K ∧
      (∀ i, i < f → s.bufferWritePos + i < cfg.K →
        (accumulateBlock cfg history f s).audioBuf (s.bufferWritePos + i) =
          monoMix cfg (history (s.W + i))) ∧
      (∀ j, j < s.bufferWritePos → (accumulateBlock cfg history f s).audioBuf j = s.audioBuf j) := by
  intro f
  induction f with
  | zero =>
    refine ⟨?_, fun i hi => absurd hi (Nat.not_lt_zero i), fun _ _ => rfl⟩
    show s.bufferWritePos = min (s.bufferWritePos + 0) cfg.K
    omega
  | succ g ih =>
    obtain ⟨ibw, icontent, iold⟩ := ih
    have hstep : accumulateBlock cfg history (g + 1) s =
        accumStep cfg (monoMix cfg (history (s.W + g))) (accumulateBlock cfg history g s) := by
      unfold accumulateBlock
      rw [List.range_succ, List.foldl_append, List.foldl_cons, List.foldl_nil]
    by_cases hroom : (accumulateBlock cfg history g s).bufferWritePos < cfg.K
    · have happ : accumStep cfg (monoMix cfg (history (s.W + g)))
          (accumulateBlock cfg history g s) =
          { accumulateBlock cfg history g s with
              audioBuf := Function.update (accumulateBlock cfg history g s).audioBuf
                (accumulateBlock cfg history g s).bufferWritePos (monoMix cfg (history (s.W + g)))
              bufferWritePos := (accumulateBlock cfg history g s).bufferWritePos + 1 } := by
        unfold accumStep
        rw [if_pos hroom]
      rw [hstep, happ]
      refine ⟨?_, ?_, ?_⟩
      · show (accumulateBlock cfg history g s).bufferWritePos + 1 =
          min (s.bufferWritePos + (g + 1)) cfg.K
        omega
      · intro i hi hik
        show Function.update (accumulateBlock cfg history g s).audioBuf
          (accumulateBlock cfg history g s).bufferWritePos (monoMix cfg (history (s.W + g)))
          (s.bufferWritePos + i) = monoMix cfg (history (s.W + i))
        rcases Nat.lt_succ_iff_lt_or_eq.mp hi with hig | hig
        · rw [Function.update_noteq (by omega)]
          exact icontent i hig (by omega)
        · subst hig
          have hx : s.bufferWritePos + i = (accumulateBlock cfg history i s).bufferWritePos := by
            omega
          rw [hx]
          exact Function.update_same _ _ _
      · intro j hj
        show Function.update (accumulateBlock cfg history g s).audioBuf
          (accumulateBlock cfg history g s).bufferWritePos (monoMix cfg (history (s.W + g))) j =
          s.audioBuf j
        rw [Function.update_noteq (by omega)]
        exact iold j hj
    · have happ : accumStep cfg (monoMix cfg (history (s.W + g)))
          (accumulateBlock cfg history g s) = accumulateBlock cfg history g s := by
        unfold accumStep
        rw [if_neg hroom]
      rw [hstep, happ]
      refine ⟨by omega, ?_, iold⟩
      intro i hi hik
      rcases Nat.lt_succ_iff_lt_or_eq.mp hi with hig | hig
      · exact icontent i hig hik
      · subst hig
        omega

/-- Helper: full account of a `process` call in which the handoff fires
with `transcriptionInterval + f = K` (the chunk fills exactly during
this call).  `bufferCaptureTime` records `delayWritePos` as it stood
BEFORE the delay-line writes of the current block (the handoff branch
runs before the per-frame loop), while the captured samples end `f`
frames later: chunk sample `i` is the downmix of the input frame at
absolute position `W + f - K + i`. -/
theorem processCall_handoff_content (cfg : Config) (history : ℕ → ℕ → ℚ) (f : ℕ) (s : ProcState)
    (hnb : s.hasNewBuffer = false)
    (hint : s.transcriptionInterval + f = cfg.K)
    (hbw : s.bufferWritePos = s.transcriptionInterval)
    (hbuf : ∀ j, j < s.bufferWritePos →
      s.audioBuf j = monoMix cfg (history (s.W - s.transcriptionInterval + j)))
    (hWi : s.transcriptionInterval ≤ s.W) :
    (processCall cfg history f s).hasNewBuffer = true ∧
    (processCall cfg history f s).bufferCaptureTime = s.W % cfg.L ∧
    (processCall cfg history f s).W = s.W + f ∧
    ∀ i, i < cfg.K → (processCall cfg history f s).processingBuf i =
      monoMix cfg (history (s.W + f - cfg.K + i)) := by
  obtain ⟨sbw, scontent, sold⟩ := accumulateBlock_spec cfg history s f (by omega)
  obtain ⟨aW, aR, aP, awp, aU, aN, aI, aPB, aCT, aD⟩ := accumulateBlock_fields cfg history f s
  have hcond : cfg.K ≤ ({ accumulateBlock cfg history f s with
      transcriptionInterval := (accumulateBlock cfg history f s).transcriptionInterval + f
    } : ProcState).transcriptionInterval ∧
      ({ accumulateBlock cfg history f s with
          transcriptionInterval := (accumulateBlock cfg history f s).transcriptionInterval + f
        } : ProcState).hasNewBuffer = false := by
    constructor
    · show cfg.K ≤ (accumulateBlock cfg history f s).transcriptionInterval + f
      rw [aI]
      omega
    · show (accumulateBlock cfg history f s).hasNewBuffer = false
      rw [aN]
      exact hnb
  have hhand : handoffCheck cfg
      { accumulateBlock cfg history f s with
          transcriptionInterval := (accumulateBlock cfg history f s).transcriptionInterval + f } =
      { accumulateBlock cfg history f s with
          processingBuf := fun i =>
            if i < min (accumulateBlock cfg history f s).bufferWritePos cfg.K then
              (accumulateBlock cfg history f s).audioBuf i
            else (accumulateBlock cfg history f s).processingBuf i
          bufferCaptureTime := (accumulateBlock cfg history f s).W % cfg.L
          hasNewBuffer := true
          bufferWritePos := 0
          transcriptionInterval := 0 } := by
    unfold handoffCheck
    rw [if_pos hcond]
  set s2 : ProcState := handoffCheck cfg
      { accumulateBlock cfg history f s with
          transcriptionInterval := (accumulateBlock cfg history f s).transcriptionInterval + f }
    with hs2
  obtain ⟨_, gN, gPB, _, gCT, _, _, gW⟩ := frameFold_fields cfg history (List.range f) s2
  refine ⟨?_, ?_, ?_, ?_⟩
  · show (frameFold cfg history (List.range f) s2).hasNewBuffer = true
    rw [gN, hhand]
  · show (frameFold cfg history (List.range f) s2).bufferCaptureTime = s.W % cfg.L
    rw [gCT, hhand]
    show (accumulateBlock cfg history f s).W % cfg.L = s.W % cfg.L
    rw [aW]
  · show (frameFold cfg history (List.range f) s2).W = s.W + f
    rw [gW, List.length_range, hhand]
    show (accumulateBlock cfg history f s).W + f = s.W + f
    rw [aW]
  · intro i hiK
    have hmin : min (accumulateBlock cfg history f s).bufferWritePos cfg.K = cfg.K := by
      rw [sbw]
      omega
    have hsel : (frameFold cfg history (List.range f) s2).processingBuf i =
        (accumulateBlock cfg history f s).audioBuf i := by
      rw [gPB, hhand]
      show (if i < min (accumulateBlock cfg history f s).bufferWritePos cfg.K then
          (accumulateBlock cfg history f s).audioBuf i
        else (accumulateBlock cfg history f s).processingBuf i) =
        (accumulateBlock cfg history f s).audioBuf i
      rw [hmin, if_pos hiK]
    show (frameFold cfg history (List.range f) s2).processingBuf i =
      monoMix cfg (history (s.W + f - cfg.K + i))
    rw [hsel]
    by_cases hib : i < s.bufferWritePos
    · rw [sold i hib, hbuf i hib]
      have : s.W - s.transcriptionInterval + i = s.W + f - cfg.K + i := by omega
      rw [this]
    · have hlt : i - s.bufferWritePos < f := by omega
      have hoff : s.bufferWritePos + (i - s.bufferWritePos) = i := by omega
      have hkey := scontent (i - s.bufferWritePos) hlt
      rw [hoff] at hkey
      rw [hkey]
      have h2 : s.W + (i - s.bufferWritePos) = s.W + f - cfg.K + i := by omega
      rw [h2]

/-- General helper: full account of ANY `process` call in which the
handoff check fires (`K ≤ transcriptionInterval + f`, worker idle),
including deferred handoffs (`transcriptionInterval` already ≥ `K`) and
blocks that overshoot the chunk boundary mid-call.  Chunk sample `i` is
the downmix of the input frame at absolute position
`W - transcriptionInterval + i` (the oldest `K` frames offered since the
capture buffer's last reset), while `bufferCaptureTime` records the
pre-block cursor `W mod L`. -/
theorem processCall_handoff_deferred (cfg : Config) (history : ℕ → ℕ → ℚ) (f : ℕ)
    (s : ProcState)
    (hnb : s.hasNewBuffer = false)
    (hK : cfg.K ≤ s.transcriptionInterval + f)
    (hbw : s.bufferWritePos = min s.transcriptionInterval cfg.K)
    (hbuf : ∀ j, j < s.bufferWritePos →
      s.audioBuf j = monoMix cfg (history (s.W - s.transcriptionInterval + j)))
    (hWi : s.transcriptionInterval ≤ s.W) :
    (processCall cfg history f s).hasNewBuffer = true ∧
    (processCall cfg history f s).bufferCaptureTime = s.W % cfg.L ∧
    (processCall cfg history f s).W = s.W + f ∧
    ∀ i, i < cfg.K → (processCall cfg history f s).processingBuf i =
      monoMix cfg (history (s.W - s.transcriptionInterval + i)) := by
  obtain ⟨sbw, scontent, sold⟩ := accumulateBlock_sat cfg history s (by omega) f
  obtain ⟨aW, aR, aP, awp, aU, aN, aI, aPB, aCT, aD⟩ := accumulateBlock_fields cfg history f s
  have hcond : cfg.K ≤ ({ accumulateBlock cfg history f s with
      transcriptionInterval := (accumulateBlock cfg history f s).transcriptionInterval + f
    } : ProcState).transcriptionInterval ∧
      ({ accumulateBlock cfg history f s with
          transcriptionInterval := (accumulateBlock cfg history f s).transcriptionInterval + f
        } : ProcState).hasNewBuffer = false := by
    constructor
    · show cfg.K ≤ (accumulateBlock cfg history f s).transcriptionInterval + f
      rw [aI]
      omega
    · show (accumulateBlock cfg history f s).hasNewBuffer = false
      rw [aN]
      exact hnb
  have hhand : handoffCheck cfg
      { accumulateBlock cfg history f s with
          transcriptionInterval := (accumulateBlock cfg history f s).transcriptionInterval + f } =
      { accumulateBlock cfg history f s with
          processingBuf := fun i =>
            if i < min (accumulateBlock cfg history f s).bufferWritePos cfg.K then
              (accumulateBlock cfg history f s).audioBuf i
            else (accumulateBlock cfg history f s).processingBuf i
          bufferCaptureTime := (accumulateBlock cfg history f s).W % cfg.L
          hasNewBuffer := true
          bufferWritePos := 0
          transcriptionInterval := 0 } := by
    unfold handoffCheck
    rw [if_pos hcond]
  set s2 : ProcState := handoffCheck cfg
      { accumulateBlock cfg history f s with
          transcriptionInterval := (accumulateBlock cfg history f s).transcriptionInterval + f }
    with hs2
  obtain ⟨_, gN, gPB, _, gCT, _, _, gW⟩ := frameFold_fields cfg history (List.range f) s2
  refine ⟨?_, ?_, ?_, ?_⟩
  · show (frameFold cfg history (List.range f) s2).hasNewBuffer = true
    rw [gN, hhand]
  · show (frameFold cfg history (List.range f) s2).bufferCaptureTime = s.W % cfg.L
    rw [gCT, hhand]
    show (accumulateBlock cfg history f s).W % cfg.L = s.W % cfg.L
    rw [aW]
  · show (frameFold cfg history (List.range f) s2).W = s.W + f
    rw [gW, List.length_range, hhand]
    show (accumulateBlock cfg history f s).W + f = s.W + f
    rw [aW]
  · intro i hiK
    have hmin : min (accumulateBlock cfg history f s).bufferWritePos cfg.K = cfg.K := by
      rw [sbw]
      omega
    have hsel : (frameFold cfg history (List.range f) s2).processingBuf i =
        (accumulateBlock cfg history f s).audioBuf i := by
      rw [gPB, hhand]
      show (if i < min (accumulateBlock cfg history f s).bufferWritePos cfg.K then
          (accumulateBlock cfg history f s).audioBuf i
        else (accumulateBlock cfg history f s).processingBuf i) =
        (accumulateBlock cfg history f s).audioBuf i
      rw [hmin, if_pos hiK]
    show (frameFold cfg history (List.range f) s2).processingBuf i =
      monoMix cfg (history (s.W - s.transcriptionInterval + i))
    rw [hsel]
    by_cases hib : i < s.bufferWritePos
    · rw [sold i hib, hbuf i hib]
    · have hbi : s.bufferWritePos = s.transcriptionInterval := by omega
      have hlt : i - s.bufferWritePos < f := by omega
      have hguard : s.bufferWritePos + (i - s.bufferWritePos) < cfg.K := by omega
      have hoff : s.bufferWritePos + (i - s.bufferWritePos) = i := by omega
      have hkey := scontent (i - s.bufferWritePos) hlt hguard
      rw [hoff] at hkey
      rw [hkey]
      have h2 : s.W + (i - s.bufferWritePos) = s.W - s.transcriptionInterval + i := by omega
      rw [h2]

theorem captureInv_start (cfg : Config) (history : ℕ → ℕ → ℚ) :
    CaptureInv cfg history startState :=
  ⟨by show (0 : ℕ) = min 0 cfg.K; omega,
   Nat.le_refl _,
   fun j hj => absurd hj (Nat.not_lt_zero j)⟩

/-- Every `process` call preserves the capture-buffer invariant, whether
or not its handoff check fires. -/
theorem processCall_captureInv (cfg : Config) (history : ℕ → ℕ → ℚ) (f : ℕ) (s : ProcState)
    (h : CaptureInv cfg history s) :
    CaptureInv cfg history (processCall cfg history f s) := by
  obtain ⟨hbw, hWi, hbuf⟩ := h
  obtain ⟨sbw, scontent, sold⟩ := accumulateBlock_sat cfg history s (by omega) f
  obtain ⟨aW, aR, aP, awp, aU, aN, aI, aPB, aCT, aD⟩ := accumulateBlock_fields cfg history f s
  by_cases hc : cfg.K ≤ s.transcriptionInterval + f ∧ s.hasNewBuffer = false
  · have hcond : cfg.K ≤ ({ accumulateBlock cfg history f s with
        transcriptionInterval := (accumulateBlock cfg history f s).transcriptionInterval + f
      } : ProcState).transcriptionInterval ∧
        ({ accumulateBlock cfg history f s with
            transcriptionInterval := (accumulateBlock cfg history f s).transcriptionInterval + f
          } : ProcState).hasNewBuffer = false := by
      constructor
      · show cfg.K ≤ (accumulateBlock cfg history f s).transcriptionInterval + f
        rw [aI]
        omega
      · show (accumulateBlock cfg history f s).hasNewBuffer = false
        rw [aN]
        exact hc.2
    have hhand : handoffCheck cfg
        { accumulateBlock cfg history f s with
            transcriptionInterval := (accumulateBlock cfg history f s).transcriptionInterval + f } =
        { accumulateBlock cfg history f s with
            processingBuf := fun i =>
              if i < min (accumulateBlock cfg history f s).bufferWritePos cfg.K then
                (accumulateBlock cfg history f s).audioBuf i
              else (accumulateBlock cfg history f s).processingBuf i
            bufferCaptureTime := (accumulateBlock cfg history f s).W % cfg.L
            hasNewBuffer := true
            bufferWritePos := 0
            transcriptionInterval := 0 } := by
      unfold handoffCheck
      rw [if_pos hcond]
    set s2 : ProcState := handoffCheck cfg
        { accumulateBlock cfg history f s with
            transcriptionInterval := (accumulateBlock cfg history f s).transcriptionInterval + f }
      with hs2
    obtain ⟨_, _, _, gI, _, _, gBW, gW⟩ := frameFold_fields cfg history (List.range f) s2
    have h0 : (frameFold cfg history (List.range f) s2).bufferWritePos = 0 := by
      rw [gBW, hhand]
    have hI0 : (frameFold cfg history (List.range f) s2).transcriptionInterval = 0 := by
      rw [gI, hhand]
    refine ⟨?_, ?_, ?_⟩
    · show (frameFold cfg history (List.range f) s2).bufferWritePos =
        min (frameFold cfg history (List.range f) s2).transcriptionInterval cfg.K
      rw [h0, hI0]
      omega
    · show (frameFold cfg history (List.range f) s2).transcriptionInterval ≤
        (frameFold cfg history (List.range f) s2).W
      rw [hI0]
      exact Nat.zero_le _
    · intro j hj
      have hj0 : j < (0 : ℕ) := by
        rw [← h0]
        exact hj
      exact absurd hj0 (Nat.not_lt_zero j)
  · have hcond' : ¬(cfg.K ≤ ({ accumulateBlock cfg history f s with
        transcriptionInterval := (accumulateBlock cfg history f s).transcriptionInterval + f
      } : ProcState).transcriptionInterval ∧
        ({ accumulateBlock cfg history f s with
            transcriptionInterval := (accumulateBlock cfg history f s).transcriptionInterval + f
          } : ProcState).hasNewBuffer = false) := by
      intro hcc
      apply hc
      constructor
      · have h1 : cfg.K ≤ (accumulateBlock cfg history f s).transcriptionInterval + f := hcc.1
        rw [aI] at h1
        exact h1
      · have h2 : (accumulateBlock cfg history f s).hasNewBuffer = false := hcc.2
        rw [aN] at h2
        exact h2
    have hhand : handoffCheck cfg
        { accumulateBlock cfg history f s with
            transcriptionInterval := (accumulateBlock cfg history f s).transcriptionInterval + f } =
        { accumulateBlock cfg history f s with
            transcriptionInterval := (accumulateBlock cfg history f s).transcriptionInterval + f } := by
      unfold handoffCheck
      rw [if_neg hcond']
    set s2 : ProcState := handoffCheck cfg
        { accumulateBlock cfg history f s with
            transcriptionInterval := (accumulateBlock cfg history f s).transcriptionInterval + f }
      with hs2
    obtain ⟨_, _, _, gI, _, gAB, gBW, gW⟩ := frameFold_fields cfg history (List.range f) s2
    have pBW : (frameFold cfg history (List.range f) s2).bufferWritePos =
        min (s.bufferWritePos + f) cfg.K := by
      rw [gBW, hhand]
      show (accumulateBlock cfg history f s).bufferWritePos = min (s.bufferWritePos + f) cfg.K
      exact sbw
    have pI : (frameFold cfg history (List.range f) s2).transcriptionInterval =
        s.transcriptionInterval + f := by
      rw [gI, hhand]
      show (accumulateBlock cfg history f s).transcriptionInterval + f =
        s.transcriptionInterval + f
      rw [aI]
    have pW : (frameFold cfg history (List.range f) s2).W = s.W + f := by
      rw [gW, List.length_range, hhand]
      show (accumulateBlock cfg history f s).W + f = s.W + f
      rw [aW]
    have pAB : (frameFold cfg history (List.range f) s2).audioBuf =
        (accumulateBlock cfg history f s).audioBuf := by
      rw [gAB, hhand]
    refine ⟨?_, ?_, ?_⟩
    · show (frameFold cfg history (List.range f) s2).bufferWritePos =
        min (frameFold cfg history (List.range f) s2).transcriptionInterval cfg.K
      rw [pBW, pI]
      omega
    · show (frameFold cfg history (List.range f) s2).transcriptionInterval ≤
        (frameFold cfg history (List.range f) s2).W
      rw [pI, pW]
      omega
    · show ∀ j, j < (frameFold cfg history (List.range f) s2).bufferWritePos →
        (frameFold cfg history (List.range f) s2).audioBuf j =
          monoMix cfg (history ((frameFold cfg history (List.range f) s2).W -
            (frameFold cfg history (List.range f) s2).transcriptionInterval + j))
      intro j hj
      rw [pBW] at hj
      rw [pAB, pW, pI]
      have harg : s.W + f - (s.transcriptionInterval + f) + j =
          s.W - s.transcriptionInterval + j := by omega
      rw [harg]
      by_cases hjb : j < s.bufferWritePos
      · rw [sold j hjb]
        exact hbuf j hjb
      · have hbi : s.bufferWritePos = s.transcriptionInterval := by omega
        have hlt : j - s.bufferWritePos < f := by omega
        have hguard : s.bufferWritePos + (j - s.bufferWritePos) < cfg.K := by omega
        have hoff : s.bufferWritePos + (j - s.bufferWritePos) = j := by omega
        have hkey := scontent (j - s.bufferWritePos) hlt hguard
        rw [hoff] at hkey
        rw [hkey]
        have h2 : s.W + (j - s.bufferWritePos) = s.W - s.transcriptionInterval + j := by omega
        rw [h2]

/-- The capture-buffer invariant holds in every state reachable from
`start` through `process` calls. -/
theorem reachable_CaptureInv (cfg : Config) (history : ℕ → ℕ → ℚ) (s : ProcState)
    (hr : Reachable cfg history s) : CaptureInv cfg history s := by
  induction hr with
  | start => exact captureInv_start cfg history
  | step f s hr ih => exact processCall_captureInv cfg history f s ih

/-- Claim C3 (amended): for EVERY chunk handed to the ASR worker — the
chunk filling exactly at the handing `process` call, overshooting the
boundary mid-call, or the handoff having been deferred because the
worker was busy (`transcriptionInterval` at entry already ≥ `K`) — the
handoff raises `hasNewBuffer`, the chunk spans exactly `K` frames, and
chunk sample `i` equals the mono downmix of the input frame originally
written at absolute position `chunkStart + i` with `chunkStart =
W - transcriptionInterval` (the oldest `K` frames offered since the
capture buffer's last reset; frames offered after it filled were
dropped).  The recorded `chunkEndPos` (`bufferCaptureTime`) is the
pre-block cursor `W mod L`, taken before this call's delay-line writes;
it equals the chunk's true end position `chunkStart + K` only when
`transcriptionInterval = K` at entry — it is `f` frames earlier than the
true end when the chunk fills exactly during the call, and at or past
the true end under deferral.  The capture-buffer hypotheses are the
invariant `CaptureInv`, established for every reachable state by
`captureInv_start`/`processCall_captureInv`/`reachable_CaptureInv`. -/
theorem chunk_handoff_spec (cfg : Config) (history : ℕ → ℕ → ℚ) (f : ℕ) (s : ProcState)
    (hcap : CaptureInv cfg history s)
    (hnb : s.hasNewBuffer = false)
    (hK : cfg.K ≤ s.transcriptionInterval + f) :
    (processCall cfg history f s).hasNewBuffer = true ∧
    (processCall cfg history f s).bufferCaptureTime = s.W % cfg.L ∧
    (processCall cfg history f s).W = s.W + f ∧
    ∀ i, i < cfg.K → (processCall cfg history f s).processingBuf i =
      monoMix cfg (history (s.W - s.transcriptionInterval + i)) :=
  processCall_handoff_deferred cfg history f s hnb hK hcap.1 hcap.2.2 hcap.2.1

theorem chunk_handoff_spec_witness :
    (processCall cfgMute1 histZ 1 sDefer).hasNewBuffer = true ∧
    (processCall cfgMute1 histZ 1 sDefer).bufferCaptureTime = sDefer.W % cfgMute1.L ∧
    (processCall cfgMute1 histZ 1 sDefer).W = sDefer.W + 1 ∧
    ∀ i, i < cfgMute1.K → (processCall cfgMute1 histZ 1 sDefer).processingBuf i =
      monoMix cfgMute1 (histZ (sDefer.W - sDefer.transcriptionInterval + i)) :=
  chunk_handoff_spec cfgMute1 histZ 1 sDefer
    ⟨by decide, by decide,
     fun j hj => by
       show (0 : ℚ) = monoMix cfgMute1 (histZ (sDefer.W - sDefer.transcriptionInterval + j))
       have hr : List.range 1 = [0] := rfl
       simp [monoMix, histZ, cfgMute1, hr]⟩
    rfl (by decide)

/-- Claim C3 counterexample: with `F = 1`, `K = 5`, the first `process`
call of 5 frames over the history `t ↦ t + 1` completes a chunk and
hands it off, recording `chunkEndPos = 0`; but the write cursor at the
instant of handoff ends the call at `5`, and chunk sample `i` holds the
downmix of the frame written at absolute position `i = 5 - K + i` (value
`i + 1`), so the claimed mapping "sample `i` ↔ delay-line position
`(chunkEndPos - K + i) mod L`" is off by the block length: the recorded
`chunkEndPos` is NOT `W` at the instant of handoff. -/
theorem chunk_capture_time_predates_block :
    (processCall cfgMute1 hist2 5 startState).hasNewBuffer = true ∧
    (processCall cfgMute1 hist2 5 startState).bufferCaptureTime = 0 ∧
    (processCall cfgMute1 hist2 5 startState).W % cfgMute1.L = 5 ∧
    (∀ i, i < 5 → (processCall cfgMute1 hist2 5 startState).processingBuf i = (i : ℚ) + 1) ∧
    (0 : ℕ) ≠ 5 := by
  have h := processCall_handoff_content cfgMute1 hist2 5 startState rfl (by decide) rfl
    (fun j hj => absurd hj (Nat.not_lt_zero j)) (Nat.le_refl _)
  obtain ⟨hN, hCT, hW, hPB⟩ := h
  refine ⟨hN, ?_, ?_, ?_, by decide⟩
  · rw [hCT]
    exact Nat.zero_mod _
  · rw [hW, cfgMute1_L]
    decide
  · intro i hi
    have hK5 : cfgMute1.K = 5 := by decide
    have hiK : i < cfgMute1.K := by
      rw [hK5]
      exact hi
    have hval := hPB i hiK
    have hW0 : startState.W = 0 := rfl
    have harg : startState.W + 5 - cfgMute1.K + i = i := by
      rw [hW0, hK5]
      omega
    rw [harg] at hval
    rw [hval]
    have hr : List.range 1 = [0] := rfl
    simp [monoMix, cfgMute1, hist2, hr]

theorem scanGo_nil (cfg : Config) (lex : String → Bool) (u : Bool) (cs : ℕ)
    (d : DelayBuf) (cnt : ℕ) : scanGo cfg lex u cs [] d cnt = (d, cnt) := rfl

theorem scanGo_cons1 (cfg : Config) (lex : String → Bool) (u : Bool) (cs : ℕ)
    (w : WordSegment) (d : DelayBuf) (cnt : ℕ) :
    scanGo cfg lex u cs [w] d cnt =
      if lex (normalizeText w.word) ∧ u then scanGo cfg lex u cs [] d cnt
      else
        ((if lex (normalizeText w.word) then applyCensorSpan cfg cs w.startSec w.endSec d else d),
         (if lex (normalizeText w.word) then cnt + 1 else cnt)) := rfl

theorem scanGo_cons2 (cfg : Config) (lex : String → Bool) (u : Bool) (cs : ℕ)
    (w w2 : WordSegment) (rest2 : List WordSegment) (d : DelayBuf) (cnt : ℕ) :
    scanGo cfg lex u cs (w :: w2 :: rest2) d cnt =
      if lex (normalizeText w.word) ∧ u then scanGo cfg lex u cs (w2 :: rest2) d cnt
      else
        (if lex (normalizeText (w.word ++ w2.word)) then
          if u then
            scanGo cfg lex u cs (w2 :: rest2)
              (if lex (normalizeText w.word) then applyCensorSpan cfg cs w.startSec w.endSec d else d)
              (if lex (normalizeText w.word) then cnt + 1 else cnt)
          else
            scanGo cfg lex u cs rest2
              (applyCensorSpan cfg cs w.startSec w2.endSec
                (if lex (normalizeText w.word) then applyCensorSpan cfg cs w.startSec w.endSec d else d))
              ((if lex (normalizeText w.word) then cnt + 1 else cnt) + 1)
        else
          scanGo cfg lex u cs (w2 :: rest2)
            (if lex (normalizeText w.word) then applyCensorSpan cfg cs w.startSec w.endSec d else d)
            (if lex (normalizeText w.word) then cnt + 1 else cnt)) := rfl

/-- Under a set `bufferUnderrun` every branch of the scan loop that would
patch the delay line instead runs `continue`, so the delay line it
returns is the one it was given. -/
theorem scanGo_underrun_no_patch (cfg : Config) (lex : String → Bool) (cs : ℕ) :
    ∀ (ws : List WordSegment) (d : DelayBuf) (cnt : ℕ),
      (scanGo cfg lex true cs ws d cnt).1 = d := by
  intro ws
  induction ws with
  | nil =>
    intro d cnt
    rfl
  | cons w rest ih =>
    intro d cnt
    cases rest with
    | nil =>
      rw [scanGo_cons1]
      by_cases hm : lex (normalizeText w.word) = true
      · rw [if_pos ⟨hm, rfl⟩]
        rfl
      · rw [if_neg (fun hc => hm hc.1), if_neg hm]
    | cons w2 rest2 =>
      rw [scanGo_cons2]
      by_cases hm : lex (normalizeText w.word) = true
      · rw [if_pos ⟨hm, rfl⟩]
        exact ih d cnt
      · rw [if_neg (fun hc => hm hc.1)]
        by_cases hb : lex (normalizeText (w.word ++ w2.word)) = true
        · rw [if_pos hb, if_pos rfl, if_neg hm]
          exact ih d _
        · rw [if_neg hb, if_neg hm]
          exact ih d _

/-- Claim C1 (code bug): with `F = 1`, `initialDelay = 10` the state
`sPlay9` is Playing with fill `9 / F = 9` seconds, strictly below
`initialDelay - headroom` for headroom `1/2`, yet after a `process` call
`bufferUnderrun` is still `false` and the gate still Playing: no store
of `true` to the flag exists anywhere in the code (it is only cleared in
`start()`), so the spec's "flag is raised whenever fill drops below
`F * (initialDelay - headroom)` during Playing" never happens.  The
second half of the claim is honored vacuously: were the flag ever set,
the scan loop would indeed patch nothing (final conjunct). -/
theorem buffer_underrun_never_raised :
    gateOf sPlay9 = GateState.Playing ∧
    ((sPlay9.W - sPlay9.R : ℕ) : ℚ) / (cfgMute1.sampleRate : ℚ) <
      cfgMute1.initialDelaySeconds - 1/2 ∧
    (processCall cfgMute1 histZ 1 sPlay9).bufferUnderrun = false ∧
    gateOf (processCall cfgMute1 histZ 1 sPlay9) = GateState.Playing ∧
    ∀ (lex : String → Bool) (cs : ℕ) (ws : List WordSegment) (d : DelayBuf),
      (censorScan cfgMute1 lex true cs ws d).1 = d := by
  refine ⟨rfl, ?_, rfl, ?_, ?_⟩
  · rw [show sPlay9.W = 9 from rfl, show sPlay9.R = 0 from rfl,
      show cfgMute1.sampleRate = 1 from rfl,
      show cfgMute1.initialDelaySeconds = 10 from rfl]
    norm_num
  · have hXst : sMid9.playbackStarted = true := rfl
    obtain ⟨hP, hWP, -, -⟩ := frameStep_started cfgMute1 (histZ sMid9.W) sMid9 hXst
    rw [show sMid9.W = 9 from rfl, show sMid9.R = 0 from rfl,
      show sMid9.wasPaused = false from rfl, show cfgMute1.sampleRate = 1 from rfl,
      show cfgMute1.initialDelaySeconds = 10 from rfl, cfgMute1_L] at hWP
    norm_num at hWP
    have hg1 : (processCall cfgMute1 histZ 1 sPlay9).playbackStarted = true := hP
    have hg2 : (processCall cfgMute1 histZ 1 sPlay9).wasPaused = false := hWP
    unfold gateOf
    rw [hg1, hg2]
    norm_num
  · exact fun lex cs ws d => scanGo_underrun_no_patch cfgMute1 lex cs ws d 0
